import Mathlib

/-!
# Verification of the Poker-Collusion NLHE engine, abstraction and MCCFR trainer

A shallow embedding of the Python sources under `poker_collusion/` into Lean 4:

* `env/hand_eval.py`     — 5-card hand evaluator (`evaluate_hand`, `_score_5`);
* `abstraction/actions.py` — legal abstract actions and chip conversion;
* `env/game_state.py`    — the mutable hand state (`NLHEState`, `deal_new_hand`,
  `get_payoffs`);
* `env/game_logic.py`    — `apply_action`, `undo_action`, `sample_chance`,
  round advancement and showdown resolution;
* `abstraction/bucketing.py` and `abstraction/info_set.py` — bucket oracle and
  info-set key (the global RNG consumed by `_estimate_equity` is made explicit
  as a stream of shuffle results plus a position counter);
* `cfr/strategy.py` and the node-update core of `cfr/trainer.py`.

Chip amounts (Python floats holding blind fractions) are modelled as rationals:
the arithmetic performed by the code is the field arithmetic written in the
source, and none of the claims under study is about floating-point rounding.
Python lists of per-player data become functions `Fin 3 → _`; Python's
`list[i]` with its tolerance of small negative indices becomes `pIdx`.

Reachability of engine states (`ReachPlay`) is dealing a hand from a permuted
deck and then interleaving legal `apply_action` steps with `sample_chance`
steps at chance nodes, exactly the moves the game interface offers a player;
the undo machinery is analysed separately on explicit call sequences.
-/

namespace PokerCollusion

abbrev Player := Fin 3

/-- Python list indexing for the 3-elements-per-player lists: `l[i]` accepts
`-3 ≤ i < 3`, with negative indices counting from the end; `i % 3` (Lean's
`Int.emod`, which is nonnegative) reproduces that for every such `i`. -/
def pIdx (i : ℤ) : Player :=
  ⟨(i % 3).toNat, by
    have h0 : 0 ≤ i % 3 := Int.emod_nonneg i (by norm_num)
    have h1 : i % 3 < 3 := Int.emod_lt_of_pos i (by norm_num)
    omega⟩

/-- `max` over the three entries of a per-player map, i.e. `max(state.bets)`. -/
def max3 (b : Player → ℚ) : ℚ := max (max (b 0) (b 1)) (b 2)

/-- `max(state.bets[q] for q in range(NUM_PLAYERS) if q != p)`. -/
def maxOthers (b : Player → ℚ) (p : Player) : ℚ :=
  if p = 0 then max (b 1) (b 2)
  else if p = 1 then max (b 0) (b 2)
  else max (b 0) (b 1)

/-! ## `config.py` -/

def NUM_PLAYERS : ℕ := 3
def STARTING_STACK_BB : ℚ := 20
def SMALL_BLIND_BB : ℚ := 1/2
def BIG_BLIND_BB : ℚ := 1
def NUM_ACTIONS : ℕ := 10
def PREFLOP_BUCKETS : ℕ := 15
def FLOP_BUCKETS : ℕ := 50
def TURN_BUCKETS : ℕ := 50
def RIVER_BUCKETS : ℕ := 50
def PRUNE_THRESHOLD : ℚ := -300
def PRUNE_WARM_UP_ITERATIONS : ℕ := 100

/-! ## `env/hand_eval.py`

Scores are the Python comparison tuples rendered as `List ℕ`, compared
lexicographically exactly as Python compares tuples of equal-category hands.
-/

def card_rank (card : ℕ) : ℕ := card % 13

def card_suit (card : ℕ) : ℕ := card / 13

/-- Python `tuple.__lt__` / `list.__lt__`: lexicographic, a strict prefix is
smaller. -/
def pyListLt : List ℕ → List ℕ → Bool
  | [], [] => false
  | [], _ :: _ => true
  | _ :: _, [] => false
  | a :: as_, b :: bs => if a < b then true else if b < a then false else pyListLt as_ bs

/-- Stable insertion into an ascending-sorted list. -/
def insertLe (le : ℕ → ℕ → Bool) (a : ℕ) : List ℕ → List ℕ
  | [] => [a]
  | b :: bs => if le a b then a :: b :: bs else b :: insertLe le a bs

/-- Stable insertion sort by `le`: the semantics of Python's stable
`sorted(xs, key=...)`. -/
def isortLe (le : ℕ → ℕ → Bool) (l : List ℕ) : List ℕ := l.foldr (insertLe le) []

/-- Sort a list of naturals in descending order (`sorted(xs, reverse=True)`). -/
def sortDesc (l : List ℕ) : List ℕ := (isortLe (fun a b => a ≤ b) l).reverse

/-- Occurrence count of `r` in `l` (`Counter(ranks)[r]`). -/
def rankCount (l : List ℕ) (r : ℕ) : ℕ := l.count r

/-- `_score_5(cards)`: score one 5-card hand as a comparable tuple. -/
def score_5 (cards : List ℕ) : List ℕ :=
  let ranks := sortDesc (cards.map card_rank)
  let suits := cards.map card_suit
  let is_flush := suits.dedup.length = 1
  let unique_ranks := sortDesc (cards.map card_rank).dedup
  let straight_data : Bool × ℕ :=
    if unique_ranks.length = 5 then
      if unique_ranks = [12, 3, 2, 1, 0] then (true, 3)
      else if unique_ranks.headD 0 - unique_ranks.getD 4 0 = 4 then
        (true, unique_ranks.headD 0)
      else (false, 0)
    else (false, 0)
  let is_straight := straight_data.1
  let straight_high := straight_data.2
  -- `sorted(counts.values(), reverse=True)` and
  -- `sorted(counts.keys(), key=lambda r: (counts[r], r), reverse=True)`
  let freq := sortDesc (unique_ranks.map (rankCount ranks))
  let ranks_by_freq :=
    (isortLe
      (fun r1 r2 => decide (rankCount ranks r1 > rankCount ranks r2 ∨
        (rankCount ranks r1 = rankCount ranks r2 ∧ r1 ≥ r2)))
      unique_ranks)
  if is_straight ∧ is_flush then [8, straight_high]
  else if freq = [4, 1] then 7 :: ranks_by_freq
  else if freq = [3, 2] then 6 :: ranks_by_freq
  else if is_flush then 5 :: ranks
  else if is_straight then [4, straight_high]
  else if freq = [3, 1, 1] then 3 :: ranks_by_freq
  else if freq = [2, 2, 1] then 2 :: ranks_by_freq
  else if freq = [2, 1, 1, 1] then 1 :: ranks_by_freq
  else 0 :: ranks

/-- `evaluate_hand(cards)`: best score over all 5-card subsets.  The source
returns `None` when fewer than 5 cards are given (it is only called with
5–7); that case is rendered as `[]`, smaller than every real score. -/
def evaluate_hand (cards : List ℕ) : List ℕ :=
  (List.sublistsLen 5 cards).foldl
    (fun best combo =>
      let score := score_5 combo
      if best = [] ∨ pyListLt best score then score else best) []

/-! ## `abstraction/actions.py` -/

def PREFLOP_RAISE_BB : List ℚ := [2, 5/2, 3, 4, 5, 8, 12]

def POSTFLOP_POT_MULT : List ℚ := [1/4, 33/100, 1/2, 66/100, 3/4, 1, 3/2]

/-- History entries: an abstract action index `0..9`, or the `DEAL` sentinel. -/
inductive HEntry where
  | act (a : ℕ)
  | deal
deriving DecidableEq, Repr

/-- Undo-stack records pushed by `apply_action` (a dict snapshot of the eight
mutable scalar/array fields) and by `sample_chance` (the `("DEAL", n, bets,
last_raiser, last_raise_amount)` tuple; the source's `len(top) >= 5` guard is
always true because the tuple is always pushed with all five components). -/
inductive UndoRec where
  | act («stacks» : Player → ℚ) (pot : ℚ) (bets : Player → ℚ)
      (active : Player → Bool) (all_in : Player → Bool)
      (last_raiser : ℤ) (last_raise_amount : ℚ) (current_player : ℤ)
  | deal (n : ℕ) (bets : Player → ℚ) (last_raiser : ℤ) (last_raise_amount : ℚ)
deriving DecidableEq

/-- `NLHEState` (`env/game_state.py`). -/
structure NLHEState where
  deck : List ℕ
  deck_idx : ℕ
  hole_cards : Player → List ℕ
  board : List ℕ
  round_idx : ℕ
  «stacks» : Player → ℚ
  pot : ℚ
  bets : Player → ℚ
  active : Player → Bool
  all_in : Player → Bool
  current_player : ℤ
  action_history : List HEntry
  last_raiser : ℤ
  last_raise_amount : ℚ
  done : Bool
  chance_pending : Bool
  undo_stack : List UndoRec
deriving DecidableEq

namespace NLHEState

/-- `_to_call(state)`. -/
def to_call (s : NLHEState) : ℚ := max3 s.bets - s.bets (pIdx s.current_player)

/-- `_max_bet(state)`. -/
def max_bet (s : NLHEState) : ℚ := max3 s.bets

/-- `_pot_for_acting(state)`. -/
def pot_for_acting (s : NLHEState) : ℚ := s.pot + s.to_call

/-- `_min_raise_total(state)`. -/
def min_raise_total (s : NLHEState) : ℚ := s.max_bet + s.last_raise_amount

end NLHEState

/-- The preflop raise-candidate loop of `get_legal_action_indices`
(`for i, total_bb in enumerate(PREFLOP_RAISE_BB): ...` with its `continue`s
and `break`), returning the appended indices and the final `seen_totals`. -/
def preflopRaiseLoop (min_raise_total stack : ℚ) :
    List (ℕ × ℚ) → List ℚ → List ℕ × List ℚ
  | [], seen => ([], seen)
  | (i, total_bb) :: rest, seen =>
    if total_bb < min_raise_total then preflopRaiseLoop min_raise_total stack rest seen
    else if total_bb > stack then ([], seen)
    else if total_bb ∈ seen then preflopRaiseLoop min_raise_total stack rest seen
    else
      let r := preflopRaiseLoop min_raise_total stack rest (total_bb :: seen)
      ((2 + i) :: r.1, r.2)

/-- The postflop raise-candidate loop of `get_legal_action_indices`. -/
def postflopRaiseLoop (pot to_call max_bet min_raise_total stack : ℚ) :
    List (ℕ × ℚ) → List ℚ → List ℕ × List ℚ
  | [], seen => ([], seen)
  | (i, mult) :: rest, seen =>
    let total_bet := to_call + pot * mult
    if max_bet > 0 ∧ total_bet < min_raise_total then
      postflopRaiseLoop pot to_call max_bet min_raise_total stack rest seen
    else if total_bet > stack then
      postflopRaiseLoop pot to_call max_bet min_raise_total stack rest seen
    else if total_bet ∈ seen then
      postflopRaiseLoop pot to_call max_bet min_raise_total stack rest seen
    else
      let r := postflopRaiseLoop pot to_call max_bet min_raise_total stack rest
        (total_bet :: seen)
      ((2 + i) :: r.1, r.2)

/-- `get_legal_action_indices(state)`. -/
def get_legal_action_indices (s : NLHEState) : List ℕ :=
  let p := pIdx s.current_player
  if ¬ s.active p ∨ s.all_in p then []
  else
    let to_call := s.to_call
    let stack := s.stacks p
    let is_preflop := s.round_idx = 0
    let base : List ℕ :=
      if to_call > 0 then if stack ≥ to_call then [0, 1] else [0] else [1]
    let chips_after_call := stack - to_call
    if chips_after_call ≤ 0 then
      (if stack > 0 ∧ 9 ∉ base then base ++ [9] else base).mergeSort (· ≤ ·)
    else if is_preflop then
      let min_raise_total := s.min_raise_total
      let r := preflopRaiseLoop min_raise_total stack
        (PREFLOP_RAISE_BB.enum) []
      let legal := base ++ r.1
      let legal :=
        if stack > 0 ∧ (stack ≥ min_raise_total ∨ to_call > 0) then
          if stack ∉ r.2 then legal ++ [9] else legal
        else legal
      legal.mergeSort (· ≤ ·)
    else
      let pot := s.pot_for_acting
      let max_bet := s.max_bet
      let min_raise_total := if max_bet > 0 then s.min_raise_total else 0
      let r := postflopRaiseLoop pot to_call max_bet min_raise_total stack
        (POSTFLOP_POT_MULT.enum) []
      let legal := base ++ r.1
      -- the source appends 9 whether or not `all_in_total` was in `seen_totals`
      let legal :=
        if stack > 0 ∧ (stack ≥ min_raise_total ∨ to_call > 0) then legal ++ [9]
        else legal
      legal.mergeSort (· ≤ ·)

/-- `action_index_to_chips(state, action_index)`:
`(is_fold, total_bet_this_street)` for the current player. -/
def action_index_to_chips (s : NLHEState) (action_index : ℕ) : Bool × ℚ :=
  let p := pIdx s.current_player
  let to_call := s.to_call
  let stack := s.stacks p
  let is_preflop := s.round_idx = 0
  if action_index = 0 then (true, s.bets p)
  else if action_index = 1 then
    if to_call > 0 then (false, s.bets p + min to_call stack) else (false, s.bets p)
  else if action_index = 9 then (false, s.bets p + stack)
  else if is_preflop then
    (false, PREFLOP_RAISE_BB.getD (action_index - 2) 0)
  else
    let pot := s.pot_for_acting
    let mult := POSTFLOP_POT_MULT.getD (action_index - 2) 0
    let total_bet := to_call + pot * mult
    (false, min total_bet stack)

/-! ## `env/game_state.py` -/

/-- A state with every field at its `NLHEState.__init__` value. -/
def initState : NLHEState where
  deck := []
  deck_idx := 0
  hole_cards := fun _ => []
  board := []
  round_idx := 0
  «stacks» := fun _ => STARTING_STACK_BB
  pot := 0
  bets := fun _ => 0
  active := fun _ => true
  all_in := fun _ => false
  current_player := 0
  action_history := []
  last_raiser := -1
  last_raise_amount := 0
  done := false
  chance_pending := false
  undo_stack := []

/-- `deal_new_hand()`, with the `np.random.permutation(52)` draw made an
explicit argument.  P0 = button, P1 = SB, P2 = BB. -/
def deal_new_hand (deck : List ℕ) : NLHEState :=
  let s := initState
  let s := { s with deck := deck, deck_idx := 0 }
  let s := { s with
    hole_cards := fun p => [deck.getD (2 * p.val) 0, deck.getD (2 * p.val + 1) 0],
    deck_idx := 6 }
  { s with
    «stacks» := Function.update
      (Function.update s.stacks 1 (s.stacks 1 - SMALL_BLIND_BB)) 2
      (s.stacks 2 - BIG_BLIND_BB),
    bets := Function.update (Function.update s.bets 1 SMALL_BLIND_BB) 2 BIG_BLIND_BB,
    pot := SMALL_BLIND_BB + BIG_BLIND_BB,
    current_player := 0,
    last_raiser := 2,
    last_raise_amount := BIG_BLIND_BB }

/-- `get_payoffs(state)`: net profit in BB for each player. -/
def get_payoffs (s : NLHEState) : Player → ℚ :=
  fun p => s.stacks p - STARTING_STACK_BB

/-! ## `env/game_logic.py` -/

def get_current_player (s : NLHEState) : ℤ :=
  if s.done ∨ s.chance_pending then -1 else s.current_player

def get_legal_actions (s : NLHEState) : List ℕ :=
  if s.done ∨ s.chance_pending then [] else get_legal_action_indices s

def is_terminal (s : NLHEState) : Bool := s.done

def is_chance_node (s : NLHEState) : Bool := s.chance_pending && !s.done

/-- `can_act` membership: `state.active[i] and not state.all_in[i]`. -/
def canAct (s : NLHEState) (p : Player) : Bool := s.active p && !s.all_in p

/-- `[i for i in range(NUM_PLAYERS) if state.active[i] and not state.all_in[i]]`. -/
def canActList (s : NLHEState) : List Player := (List.finRange 3).filter (canAct s)

/-- `sum(state.active)`. -/
def activeCount (s : NLHEState) : ℕ := ((List.finRange 3).filter (s.active ·)).length

/-- `[p for p in range(NUM_PLAYERS) if state.active[p]]`. -/
def activeList (s : NLHEState) : List Player := (List.finRange 3).filter (s.active ·)

/-- One board card dealt from the deck cursor (`state.board.append(
state.deck[state.deck_idx]); state.deck_idx += 1`). -/
def dealOne (s : NLHEState) : NLHEState :=
  { s with board := s.board ++ [s.deck.getD s.deck_idx 0], deck_idx := s.deck_idx + 1 }

/-- `for _ in range(n): <deal one card>`. -/
def dealN (s : NLHEState) : ℕ → NLHEState
  | 0 => s
  | n + 1 => dealN (dealOne s) n

/-- The comparison step of the best-hand loop in `_resolve_side_pots`
(`if best_hand is None or h > best_hand`); the `None` of the source is the
empty score `[]`, which every real score beats. -/
def pickWinnerLoop (holes : Player → List ℕ) (board : List ℕ) :
    List Player → List ℕ → Option Player → Option Player
  | [], _, winner => winner
  | p :: rest, best, winner =>
    let h := evaluate_hand (holes p ++ board)
    if best = [] ∨ pyListLt best h then pickWinnerLoop holes board rest h (some p)
    else pickWinnerLoop holes board rest best winner

/-- The `for p in eligible_win` loop of `_resolve_side_pots`: first player
with the strictly best hand. -/
def pickWinner (holes : Player → List ℕ) (board : List ℕ) (elig : List Player) :
    Option Player :=
  pickWinnerLoop holes board elig [] none

/-- The `for level in levels` loop of `_resolve_side_pots`, threading `prev`
and the stacks being credited. -/
def resolveLevels (holes : Player → List ℕ) (board : List ℕ)
    (active : Player → Bool) (contributions : Player → ℚ) :
    List ℚ → ℚ → (Player → ℚ) → Player → ℚ
  | [], _, stx => stx
  | level :: rest, prev, stx =>
    let eligible_count := (List.finRange 3).filter (fun p => contributions p ≥ level)
    let slice_size := (level - prev) * eligible_count.length
    if slice_size ≤ 0 then
      resolveLevels holes board active contributions rest level stx
    else
      let eligible_win := eligible_count.filter (fun p => active p)
      match pickWinner holes board eligible_win with
      | none => resolveLevels holes board active contributions rest level stx
      | some winner =>
        resolveLevels holes board active contributions rest level
          (Function.update stx winner (stx winner + slice_size))

/-- `sorted(set(contributions[p] for p in range(NUM_PLAYERS) if contributions[p] > 0))`. -/
def potLevels (contributions : Player → ℚ) : List ℚ :=
  (((List.finRange 3).filterMap
    (fun p => if contributions p > 0 then some (contributions p) else none)).toFinset).sort (· ≤ ·)

/-- `_resolve_side_pots(state, active_players, contributions)`. -/
def resolve_side_pots (s : NLHEState) (contributions : Player → ℚ) : NLHEState :=
  let newStacks :=
    resolveLevels s.hole_cards s.board s.active contributions
      (potLevels contributions) 0 s.stacks
  { s with «stacks» := newStacks }

/-- `_resolve_hand(state)`; `active[0]` on the (always nonempty there)
survivor list is rendered totally as `headD 0`. -/
def resolve_hand (s : NLHEState) : NLHEState :=
  let t := { s with done := true }
  if (activeList t).length = 1 then
    let w := (activeList t).headD 0
    { t with «stacks» := Function.update t.stacks w (t.stacks w + t.pot) }
  else
    resolve_side_pots t (fun p => STARTING_STACK_BB - t.stacks p)

/-- `_run_out_board_and_resolve(state)`: `while len(board) < 5` deal a street,
then resolve. -/
def run_out_board_and_resolve (s : NLHEState) : NLHEState :=
  if h5 : s.board.length < 5 then
    let n := if s.round_idx = 0 then 3 else 1
    run_out_board_and_resolve { dealN s n with round_idx := s.round_idx + 1 }
  else resolve_hand s
termination_by 5 - s.board.length
decreasing_by
  have hgrow : ∀ k (t : NLHEState), (dealN t k).board.length = t.board.length + k := by
    intro k
    induction k with
    | zero => intro t; rfl
    | succ m ih =>
      intro t
      have h2 := ih (dealOne t)
      have h3 : (dealOne t).board.length = t.board.length + 1 := by simp [dealOne]
      simp only [dealN]
      omega
  have hb := hgrow (if s.round_idx = 0 then 3 else 1) s
  by_cases hr : s.round_idx = 0 <;>
    simp only [hr, if_true, if_false, dif_pos, dif_neg, not_false_iff] at hb ⊢ <;> omega

/-- The last-`DEAL` scan shared by `_who_acted_this_round` and
`_is_round_complete`: index of the entry after the last `DEAL` (`start`). -/
def lastDealStart (hist : List HEntry) : ℕ :=
  match hist.reverse.findIdx? (· = HEntry.deal) with
  | none => 0
  | some k => hist.length - k

/-- The walk of `round_actions` in `_who_acted_this_round`: attribute entry
number `idx` to `order[idx % 3]`, unconditionally (the source does not skip
folded or all-in seats), stopping at a `DEAL`. -/
def actedWalk (order : List Player) : List HEntry → ℕ → List Player
  | [], _ => []
  | HEntry.deal :: _, _ => []
  | HEntry.act _ :: rest, idx =>
    order.getD (idx % order.length) 0 :: actedWalk order rest (idx + 1)

/-- `_who_acted_this_round(state)`. -/
def who_acted_this_round (s : NLHEState) : List Player :=
  let hist := s.action_history
  let round_actions := hist.drop (lastDealStart hist)
  let order : List Player := if s.round_idx = 0 then [0, 1, 2] else [1, 2, 0]
  actedWalk order round_actions 0

/-- The raise-position scan of `_is_round_complete`: index (in
`round_actions`) of the last non-check/non-fold entry attributed to
`last_raiser` (`raise_idx`, `-1` rendered as `none`). -/
def raiseIdxScan (order : List Player) (lr : Player) :
    List HEntry → ℕ → Option ℕ
  | [], _ => none
  | HEntry.deal :: _, _ => none
  | HEntry.act a :: rest, i =>
    let later := raiseIdxScan order lr rest (i + 1)
    if a ≠ 0 ∧ a ≠ 1 ∧ order.getD (i % order.length) 0 = lr then
      match later with
      | none => some i
      | some j => some j
    else later

/-- The `found_after` scan of `_is_round_complete`: does some entry strictly
after `raise_idx` belong to `p`? -/
def foundAfter (order : List Player) (p : Player) (raise_idx : ℕ) :
    List HEntry → ℕ → Bool
  | [], _ => false
  | HEntry.deal :: _, _ => false
  | HEntry.act _ :: rest, i =>
    if i > raise_idx ∧ order.getD (i % order.length) 0 = p then true
    else foundAfter order p raise_idx rest (i + 1)

/-- `_is_round_complete(state)`. -/
def is_round_complete (s : NLHEState) : Bool :=
  let can_act := canActList s
  if can_act = [] then true
  else if ¬ (∀ p ∈ can_act, p ∈ who_acted_this_round s) then false
  else
    let bets_active := can_act.map s.bets
    if bets_active.dedup.length > 1 then false
    else if s.last_raiser ≥ 0 ∧ pIdx s.last_raiser ∈ can_act then
      let round_actions := s.action_history.drop (lastDealStart s.action_history)
      let order : List Player := if s.round_idx = 0 then [0, 1, 2] else [1, 2, 0]
      match raiseIdxScan order (pIdx s.last_raiser) round_actions 0 with
      | none => true
      | some raise_idx =>
        decide (∀ p ∈ can_act, p = pIdx s.last_raiser ∨
          foundAfter order p raise_idx round_actions 0)
    else true

/-- `_advance_to_next_player(state)`'s `while` search: the next index mod 3
after `current_player` that is active and not all-in (it visits at most the
three seats; the fallback return of `current_player` is unreachable because
the caller guarantees at least two seats can act). -/
def nextPlayerSearch (s : NLHEState) : ℤ :=
  if canAct s (pIdx (s.current_player + 1)) then ((pIdx (s.current_player + 1) : Fin 3) : ℕ)
  else if canAct s (pIdx (s.current_player + 2)) then ((pIdx (s.current_player + 2) : Fin 3) : ℕ)
  else if canAct s (pIdx (s.current_player + 3)) then ((pIdx (s.current_player + 3) : Fin 3) : ℕ)
  else s.current_player

/-- `_advance_to_next_player(state)`. -/
def advance_to_next_player (s : NLHEState) : NLHEState :=
  if (canActList s).length ≤ 1 then run_out_board_and_resolve s
  else if is_round_complete s then
    if s.round_idx ≥ 3 then resolve_hand s
    else { s with chance_pending := true, current_player := -1 }
  else { s with current_player := nextPlayerSearch s }

/-- The first seat in postflop order `1, 2, 0` that is active and not all-in
(the `for offset in range(1, NUM_PLAYERS + 1)` loop of `sample_chance`). -/
def firstToActPostflop (s : NLHEState) : Option Player :=
  if canAct s 1 then some 1
  else if canAct s 2 then some 2
  else if canAct s 0 then some 0
  else none

/-- `sample_chance(state)`. -/
def sample_chance (s : NLHEState) : NLHEState :=
  if ¬ s.chance_pending ∨ s.done then s
  else
    let n := if s.round_idx = 0 then 3 else 1
    let s := dealN s n
    let s := { s with
      action_history := s.action_history ++ [HEntry.deal],
      round_idx := s.round_idx + 1,
      chance_pending := false,
      undo_stack := s.undo_stack ++
        [UndoRec.deal n s.bets s.last_raiser s.last_raise_amount] }
    let s := { s with
      bets := fun _ => 0,
      last_raiser := -1,
      last_raise_amount := 0 }
    match firstToActPostflop s with
    | some p => { s with current_player := (p : ℕ) }
    | none => run_out_board_and_resolve s

/-- The `state.active[p] = False` arm of `apply_action`. -/
def apply_fold (s : NLHEState) (p : Player) : NLHEState :=
  { s with active := Function.update s.active p false }

/-- The chip-moving arm of `apply_action`: pay `total_bet - bets[p]` from the
stack into the pot and the street bet, update `last_raiser` /
`last_raise_amount` on a strict raise over the other seats, and mark all-in
when the stack is exhausted. -/
def apply_chips (s : NLHEState) (p : Player) (total_bet : ℚ) : NLHEState :=
  let add := total_bet - s.bets p
  let s1 := { s with
    «stacks» := Function.update s.stacks p (s.stacks p - add),
    bets := Function.update s.bets p total_bet }
  let s2 := { s1 with pot := s1.pot + add }
  let s3 :=
    if add > 0 ∧ total_bet > maxOthers s2.bets p then
      { s2 with last_raiser := ((p : ℕ) : ℤ), last_raise_amount := add }
    else s2
  if s3.stacks p ≤ 0 then { s3 with all_in := Function.update s3.all_in p true }
  else s3

/-- `apply_action(state, action_index)`. -/
def apply_action (s : NLHEState) (action_index : ℕ) : NLHEState :=
  let p := pIdx s.current_player
  let fc := action_index_to_chips s action_index
  let s1 := { s with
    undo_stack := s.undo_stack ++
      [UndoRec.act s.stacks s.pot s.bets s.active s.all_in
        s.last_raiser s.last_raise_amount s.current_player],
    action_history := s.action_history ++ [HEntry.act action_index] }
  let s2 := if fc.1 then apply_fold s1 p else apply_chips s1 p fc.2
  if activeCount s2 = 1 then resolve_hand s2
  else advance_to_next_player s2

/-- `undo_action(state)` for an explicit state argument. -/
def undo_action (s : NLHEState) : NLHEState :=
  match s.undo_stack.reverse with
  | [] => s
  | top :: restRev =>
    let s := { s with undo_stack := restRev.reverse }
    match top with
    | UndoRec.deal n bets lr lra =>
      { s with
        action_history := s.action_history.dropLast,
        round_idx := s.round_idx - 1,
        deck_idx := s.deck_idx - n,
        board := s.board.take (s.board.length - n),
        chance_pending := true,
        current_player := -1,
        bets := bets, last_raiser := lr, last_raise_amount := lra }
    | UndoRec.act stx pot bets act ai lr lra cp =>
      { s with
        action_history := s.action_history.dropLast,
        «stacks» := stx, pot := pot, bets := bets, active := act, all_in := ai,
        last_raiser := lr, last_raise_amount := lra, current_player := cp,
        done := false }

/-- `undo_action()` with the module-level `_current_state` (which is `None`
until the first `apply_action`): `if state is None ... return`. -/
def undo_action_global (cur : Option NLHEState) : Option NLHEState :=
  match cur with
  | none => none
  | some s => some (undo_action s)

/-! ## `abstraction/bucketing.py`

The pickled tables are parameters (`_load_tables` reads them from disk once):
the preflop table is the `dict` as an association list read through
`dict.get(key, 0)`, and each postflop table is the list of cluster centers.
The global `random` stream consumed by `_estimate_equity`'s
`random.shuffle(rest)` is a parameter `shuffles : ℕ → List ℕ` giving the
result of the `k`-th shuffle call of the process together with a position
counter, which every rollout advances by one. -/

structure BucketTables where
  preflop : Option (List (ℕ × ℕ))
  flop : Option (List ℚ)
  turn : Option (List ℚ)
  river : Option (List ℚ)
deriving DecidableEq

/-- `d.get(k, 0)` on the pickled preflop dict. -/
def dictGet (d : List (ℕ × ℕ)) (k : ℕ) : ℕ :=
  ((d.find? (fun kv => kv.1 = k)).map Prod.snd).getD 0

/-- `_hole_to_canonical(hole_cards)`. -/
def hole_to_canonical (hole_cards : List ℕ) : ℕ :=
  let r0 := hole_cards.getD 0 0 % 13
  let r1 := hole_cards.getD 1 0 % 13
  let s0 := hole_cards.getD 0 0 / 13
  let s1 := hole_cards.getD 1 0 / 13
  let high := max r0 r1
  let low := min r0 r1
  if high = low then high
  else
    let suited := if s0 = s1 then (1 : ℕ) else 0
    13 + (high - 1) * high + 2 * low + (if suited = 1 then 0 else 1)

/-- Python `int(q)` for the nonnegative rationals produced here (truncation
toward zero = floor on nonnegatives). -/
def pyInt (q : ℚ) : ℕ := (⌊q⌋).toNat

/-- `_preflop_fallback(hole_cards)`. -/
def preflop_fallback (hole_cards : List ℕ) (num_buckets : ℕ := PREFLOP_BUCKETS) : ℕ :=
  let r0 := hole_cards.getD 0 0 % 13
  let r1 := hole_cards.getD 1 0 % 13
  let high := max r0 r1
  let low := min r0 r1
  let suited := hole_cards.getD 0 0 / 13 = hole_cards.getD 1 0 / 13
  let score : ℕ := high * 13 + low
  let score := if high = low then score + 100 else score
  let score := if suited then score + 20 else score
  pyInt (((score : ℚ) / (12 * 13 + 12 + 100 + 20 + 1)) * num_buckets) % num_buckets

/-- `_postflop_fallback(hole_cards, board, num_buckets)`. -/
def postflop_fallback (hole_cards board : List ℕ) (num_buckets : ℕ) : ℕ :=
  let cards := hole_cards ++ board
  if cards.length < 5 then 0
  else
    let score := evaluate_hand cards
    let category := score.headD 0
    pyInt (((category : ℚ) / 9) * num_buckets) % num_buckets

/-- `_estimate_equity(hole_cards, board, board_len, n_rollouts=100)`:
Monte Carlo equity against one random opponent.  Returns the estimate and
the advanced position in the shuffle stream. -/
def estimate_equity (shuffles : ℕ → List ℕ) (pos : ℕ) (hole_cards board : List ℕ)
    (board_len : ℕ) (n_rollouts : ℕ := 100) : ℚ × ℕ :=
  let wins : ℚ := (List.range n_rollouts).foldl
    (fun wins k =>
      let rest := shuffles (pos + k)
      let opp := rest.take 2
      let runout :=
        if board_len = 3 then (rest.drop 2).take 5
        else if board_len = 4 then (rest.drop 2).take 4
        else []
      let full_board := board.take board_len ++ runout
      if full_board.length < 5 then wins
      else
        let my_hand := evaluate_hand (hole_cards ++ full_board)
        let opp_hand := evaluate_hand (opp ++ full_board)
        if pyListLt opp_hand my_hand then wins + 1
        else if my_hand = opp_hand then wins + 1/2
        else wins) 0
  (wins / n_rollouts, pos + n_rollouts)

/-- The nearest-center scan of `_equity_to_bucket`. -/
def nearestCenter (eq : ℚ) (centers : List ℚ) : ℕ :=
  (centers.enum.foldl
    (fun best ic => if |eq - ic.2| < best.2 then (ic.1, |eq - ic.2|) else best)
    (0, |eq - centers.headD 0|)).1

/-- `_equity_to_bucket(hole_cards, board, board_len, centers, num_buckets)`. -/
def equity_to_bucket (shuffles : ℕ → List ℕ) (pos : ℕ) (hole_cards board : List ℕ)
    (board_len : ℕ) (centers : List ℚ) (num_buckets : ℕ) : ℕ × ℕ :=
  let r := estimate_equity shuffles pos hole_cards board board_len
  if centers = [] then (pyInt (r.1 * num_buckets) % num_buckets, r.2)
  else (nearestCenter r.1 centers % num_buckets, r.2)

/-- `get_bucket(hole_cards, board, round_idx)`, explicit in the loaded tables
and in the global RNG stream position it may consume. -/
def get_bucket (tables : BucketTables) (shuffles : ℕ → List ℕ) (pos : ℕ)
    (hole_cards board : List ℕ) (round_idx : ℕ) : ℕ × ℕ :=
  if round_idx = 0 then
    match tables.preflop with
    | some d => (dictGet d (hole_to_canonical hole_cards) % PREFLOP_BUCKETS, pos)
    | none => (preflop_fallback hole_cards % PREFLOP_BUCKETS, pos)
  else if round_idx = 1 ∧ board.length ≥ 3 then
    match tables.flop with
    | some centers => equity_to_bucket shuffles pos hole_cards board 3 centers FLOP_BUCKETS
    | none => (postflop_fallback hole_cards board FLOP_BUCKETS, pos)
  else if round_idx = 2 ∧ board.length ≥ 4 then
    match tables.turn with
    | some centers => equity_to_bucket shuffles pos hole_cards board 4 centers TURN_BUCKETS
    | none => (postflop_fallback hole_cards board TURN_BUCKETS, pos)
  else if round_idx = 3 ∧ board.length ≥ 5 then
    match tables.river with
    | some centers => equity_to_bucket shuffles pos hole_cards board 5 centers RIVER_BUCKETS
    | none => (postflop_fallback hole_cards board RIVER_BUCKETS, pos)
  else (0, pos)

/-! ## `abstraction/info_set.py` -/

/-- `get_info_key(state, player)`: `(bucket, tuple(action_history))`, in the
same table/RNG context as `get_bucket`. -/
def get_info_key (tables : BucketTables) (shuffles : ℕ → List ℕ) (pos : ℕ)
    (s : NLHEState) (player : Player) : (ℕ × List HEntry) × ℕ :=
  let hole := s.hole_cards player
  let board := s.board
  let round_idx := s.round_idx
  let r := get_bucket tables shuffles pos hole board round_idx
  ((r.1, s.action_history), r.2)

/-! ## `cfr/strategy.py` and the node update of `cfr/trainer.py` -/

/-- `np.zeros(n)`. -/
def npZeros (n : ℕ) : List ℚ := List.replicate n 0

/-- `np.resize(a, n)` for `len(a) < n`: tile the array cyclically (zeros when
`a` is empty). -/
def npResize (l : List ℚ) (n : ℕ) : List ℚ :=
  if l = [] then npZeros n
  else (List.range n).map (fun i => l.getD (i % l.length) 0)

/-- `regret_matching(regret_sum, num_actions)`. -/
def regret_matching (regret_sum : List ℚ) (num_actions : ℕ) : List ℚ :=
  if num_actions ≤ 0 then []
  else
    let regrets := if regret_sum.length ≥ num_actions then regret_sum
      else npZeros num_actions
    let regrets := if regrets.length < num_actions then npResize regrets num_actions
      else regrets
    let positive := (regrets.take num_actions).map (fun r => max r 0)
    let total := positive.sum
    if total > 0 then positive.map (· / total)
    else List.replicate num_actions ((1 : ℚ) / num_actions)

/-- `get_average_strategy(strategy_sum, num_actions)`. -/
def get_average_strategy (strategy_sum : List ℚ) (num_actions : ℕ) : List ℚ :=
  let s := if strategy_sum.length < num_actions then npResize strategy_sum num_actions
    else strategy_sum
  let s := s.take num_actions
  let total := s.sum
  if total > 0 then s.map (· / total)
  else List.replicate num_actions ((1 : ℚ) / num_actions)

/-- `CFRTrainer.get_strategy(info_key, legal_actions)`: the per-key tables are
total maps `K → Option (List ℚ)` standing for `dict.get`. -/
def trainer_get_strategy {K : Type} (regret_sum : K → Option (List ℚ))
    (info_key : K) (legal_actions : List ℕ) : List ℚ :=
  let regrets_full := (regret_sum info_key).getD (npZeros NUM_ACTIONS)
  let regrets_full :=
    if regrets_full.length < NUM_ACTIONS then npResize regrets_full NUM_ACTIONS
    else regrets_full
  regret_matching (legal_actions.map (fun a => regrets_full.getD a 0))
    legal_actions.length

/-- `CFRTrainer._should_prune(info_key, action)`: `draw` is the outcome of
`np.random.random() < self.prune_skip_prob`. -/
def should_prune {K : Type} (prune_threshold : Option ℚ) (iteration prune_warm_up : ℕ)
    (regret_sum : K → Option (List ℚ)) (info_key : K) (action : ℕ)
    (draw : Bool) : Bool :=
  match prune_threshold with
  | none => false
  | some thr =>
    if iteration ≤ prune_warm_up then false
    else
      let regrets := (regret_sum info_key).getD (npZeros NUM_ACTIONS)
      if action < regrets.length ∧ regrets.getD action 0 < thr then draw
      else false

/-- `strategy @ values`. -/
def dotQ (xs ys : List ℚ) : ℚ := ((xs.zip ys).map (fun p => p.1 * p.2)).sum

/-- `row[a] += x` on a numpy row (`set` leaves an out-of-range index alone,
as the claims only ever update in range). -/
def rowAddAt (row : List ℚ) (a : ℕ) (x : ℚ) : List ℚ := row.set a (row.getD a 0 + x)

/-- `for i, a in enumerate(actions): row[a] += delta i`. -/
def rowAddAll (row : List ℚ) : List (ℕ × ℚ) → List ℚ
  | [] => row
  | (a, x) :: rest => rowAddAll (rowAddAt row a x) rest

/-- Result of one traverser-owned node update in `cfr_traverse`
(`trainer.py` lines 100–127). -/
structure TraverserNodeResult where
  values : List ℚ
  ev : ℚ
  regret_row : List ℚ
  strategy_row : List ℚ

/-- The traverser-node block of `cfr_traverse`: `strategy` via regret
matching, `values[i] = 0` for pruned actions and the recursive child value
otherwise (`childValue`), `ev = strategy @ values`, then the Linear-CFR
weighted regret and strategy accumulation.  `draw a` is the pruning draw for
action `a`. -/
def cfr_traverser_node {K : Type} (prune_threshold : Option ℚ)
    (prune_warm_up : ℕ) (use_linear_cfr : Bool) (iteration : ℕ)
    (regret_sum strategy_sum : K → Option (List ℚ)) (info_key : K)
    (actions : List ℕ) (draw : ℕ → Bool) (childValue : ℕ → ℚ) :
    TraverserNodeResult :=
  let strategy := trainer_get_strategy regret_sum info_key actions
  let values := actions.map (fun a =>
    if should_prune prune_threshold iteration prune_warm_up regret_sum info_key a
        (draw a) then (0 : ℚ)
    else childValue a)
  let ev := dotQ strategy values
  let regret_update := values.map (· - ev)
  let weight : ℚ := if use_linear_cfr then iteration else 1
  let regret_row0 := (regret_sum info_key).getD (npZeros NUM_ACTIONS)
  let regret_row := rowAddAll regret_row0
    (actions.enum.map (fun ia => (ia.2, regret_update.getD ia.1 0 * weight)))
  let strategy_row0 := (strategy_sum info_key).getD (npZeros NUM_ACTIONS)
  let strategy_row := rowAddAll strategy_row0
    (actions.enum.map (fun ia => (ia.2, strategy.getD ia.1 0 * weight)))
  ⟨values, ev, regret_row, strategy_row⟩

/-! ## Reachable states and the chip-conservation invariant -/

theorem pIdx_natCast (p : Player) : pIdx ((p : ℕ) : ℤ) = p := by
  rcases p with ⟨v, hv⟩
  interval_cases v <;> rfl

theorem pIdx_int (i : ℤ) (h0 : 0 ≤ i) (h3 : i < 3) : ((pIdx i : Fin 3) : ℕ) = i.toNat := by
  simp [pIdx]
  omega

theorem max3_ge (b : Player → ℚ) (p : Player) : b p ≤ max3 b := by
  fin_cases p <;> simp [max3, le_max_iff]

theorem max3_achieved (b : Player → ℚ) : ∃ p : Player, b p = max3 b := by
  unfold max3
  rcases max_choice (b 0) (b 1) with h1 | h1 <;>
    rcases max_choice (max (b 0) (b 1)) (b 2) with h2 | h2
  · exact ⟨0, by rw [h2, h1]⟩
  · exact ⟨2, by rw [h2]⟩
  · exact ⟨1, by rw [h2, h1]⟩
  · exact ⟨2, by rw [h2]⟩

theorem max3_le_iff (b : Player → ℚ) (c : ℚ) :
    max3 b ≤ c ↔ b 0 ≤ c ∧ b 1 ≤ c ∧ b 2 ≤ c := by
  simp [max3, max_le_iff, and_assoc]

theorem maxOthers_zero (b : Player → ℚ) : maxOthers b 0 = max (b 1) (b 2) := rfl

theorem maxOthers_one (b : Player → ℚ) : maxOthers b 1 = max (b 0) (b 2) := rfl

theorem maxOthers_two (b : Player → ℚ) : maxOthers b 2 = max (b 0) (b 1) := rfl

theorem maxOthers_le_max3 (b : Player → ℚ) (p : Player) : maxOthers b p ≤ max3 b := by
  fin_cases p
  · exact (maxOthers_zero b) ▸ max_le (max3_ge b 1) (max3_ge b 2)
  · exact (maxOthers_one b) ▸ max_le (max3_ge b 0) (max3_ge b 2)
  · exact (maxOthers_two b) ▸ max_le (max3_ge b 0) (max3_ge b 1)

theorem max3_update (b : Player → ℚ) (p : Player) (v : ℚ) :
    max3 (Function.update b p v) = max (maxOthers b p) v := by
  fin_cases p <;>
    simp only [max3, maxOthers, Function.update, Fin.ext_iff] <;>
    norm_num <;> simp only [max_def] <;> split_ifs <;> linarith

theorem mem_canActList (s : NLHEState) (p : Player) :
    p ∈ canActList s ↔ canAct s p = true := by
  simp [canActList, List.mem_filter, List.mem_finRange]

/-- `sum(state.stacks)`. -/
def sumStacks (s : NLHEState) : ℚ := s.stacks 0 + s.stacks 1 + s.stacks 2

/-- Engine states reachable through the game interface: a fresh deal from a
permuted deck, a legal action at an actor state, or dealing the pending
street at a chance node. -/
inductive ReachPlay : NLHEState → Prop where
  | deal (deck : List ℕ) (hperm : deck.Perm (List.range 52)) :
      ReachPlay (deal_new_hand deck)
  | act (s : NLHEState) (a : ℕ) : ReachPlay s → s.done = false →
      s.chance_pending = false → a ∈ get_legal_actions s →
      ReachPlay (apply_action s a)
  | chance (s : NLHEState) : ReachPlay s → is_chance_node s = true →
      ReachPlay (sample_chance s)

/-- The inductive invariant carried along `ReachPlay`. -/
structure Inv (s : NLHEState) : Prop where
  conserve : s.done = false → sumStacks s + s.pot = 3 * STARTING_STACK_BB
  doneSum : s.done = true → sumStacks s = 3 * STARTING_STACK_BB
  stacksNonneg : ∀ p, 0 ≤ s.stacks p
  stacksLe : s.done = false → ∀ p, s.stacks p ≤ STARTING_STACK_BB
  betsNonneg : ∀ p, 0 ≤ s.bets p
  lraNonneg : 0 ≤ s.last_raise_amount
  coverage : s.done = false → ∀ f, s.active f = false →
      ∃ p, s.active p = true ∧ s.stacks p ≤ s.stacks f
  carried : s.done = false → ∀ p q, s.active p = true → s.active q = true →
      (s.all_in p = false ∨ 0 < s.bets p) → (s.all_in q = false ∨ 0 < s.bets q) →
      s.stacks p + s.bets p = s.stacks q + s.bets q
  maxAch : s.done = false → ∃ p, s.active p = true ∧ s.bets p = max3 s.bets
  cpValid : s.done = false → s.chance_pending = false →
      0 ≤ s.current_player ∧ s.current_player < 3 ∧
      s.active (pIdx s.current_player) = true ∧
      s.all_in (pIdx s.current_player) = false
  notAllinPos : ∀ p, s.all_in p = false → 0 < s.stacks p
  chanceBetsEq : s.done = false → s.chance_pending = true →
      ∀ p q, canAct s p = true → canAct s q = true → s.bets p = s.bets q
  maxZeroLra : s.done = false → max3 s.bets = 0 → s.last_raise_amount = 0




theorem pickWinnerLoop_mem (holes : Player → List ℕ) (board : List ℕ) :
    ∀ (l : List Player) (best : List ℕ) (winner : Option Player) (w : Player),
    pickWinnerLoop holes board l best winner = some w →
    winner = some w ∨ w ∈ l := by
  intro l
  induction l with
  | nil => intro best winner w h; simp [pickWinnerLoop] at h; exact Or.inl (by rw [h])
  | cons p rest ih =>
    intro best winner w h
    simp only [pickWinnerLoop] at h
    split at h
    · rcases ih _ _ _ h with h1 | h1
      · exact Or.inr (by simp at h1; simp [h1])
      · exact Or.inr (List.mem_cons_of_mem _ h1)
    · rcases ih _ _ _ h with h1 | h1
      · exact Or.inl h1
      · exact Or.inr (List.mem_cons_of_mem _ h1)

theorem pickWinnerLoop_some (holes : Player → List ℕ) (board : List ℕ) :
    ∀ (l : List Player) (best : List ℕ) (p : Player),
    ∃ w, pickWinnerLoop holes board l best (some p) = some w := by
  intro l
  induction l with
  | nil => intro best p; exact ⟨p, rfl⟩
  | cons q rest ih =>
    intro best p
    simp only [pickWinnerLoop]
    split
    · exact ih _ q
    · exact ih _ p

theorem pickWinner_spec (holes : Player → List ℕ) (board : List ℕ)
    (elig : List Player) (hne : elig ≠ []) :
    ∃ w, pickWinner holes board elig = some w ∧ w ∈ elig := by
  rcases elig with _ | ⟨p, rest⟩
  · exact absurd rfl hne
  · unfold pickWinner
    simp only [pickWinnerLoop, if_pos (Or.inl rfl)]
    rcases pickWinnerLoop_some holes board rest (evaluate_hand (holes p ++ board)) p with ⟨w, hw⟩
    refine ⟨w, hw, ?_⟩
    rcases pickWinnerLoop_mem holes board _ _ _ _ hw with h | h
    · simp at h; simp [h]
    · exact List.mem_cons_of_mem _ h

/-- Sum of a per-player map. -/
def sumP (f : Player → ℚ) : ℚ := f 0 + f 1 + f 2

theorem sumStacks_eq (s : NLHEState) : sumStacks s = sumP s.stacks := rfl

theorem sumP_eq_finsum (f : Player → ℚ) : sumP f = ∑ p : Player, f p := by
  rw [Fin.sum_univ_three]; rfl

theorem sumP_update (f : Player → ℚ) (p : Player) (v : ℚ) :
    sumP (Function.update f p v) = sumP f - f p + v := by
  fin_cases p <;>
    simp [sumP, Function.update_apply, Fin.ext_iff] <;> ring

theorem listFilterLen (pr : Player → Bool) :
    ((List.finRange 3).filter pr).length =
      (Finset.univ.filter (fun p => pr p = true)).card := by
  rw [← List.toFinset_card_of_nodup ((List.nodup_finRange 3).filter pr),
    List.toFinset_filter, List.toFinset_finRange]

theorem resolveLevels_mono (holes : Player → List ℕ) (board : List ℕ)
    (active : Player → Bool) (c : Player → ℚ) :
    ∀ (levels : List ℚ) (prev : ℚ) (stx : Player → ℚ) (p : Player),
    stx p ≤ resolveLevels holes board active c levels prev stx p := by
  intro levels
  induction levels with
  | nil => intro prev stx p; simp [resolveLevels]
  | cons L rest ih =>
    intro prev stx p
    simp only [resolveLevels]
    split
    · exact ih _ _ _
    · rename_i hslice
      cases hpw : pickWinner holes board
          (((List.finRange 3).filter (fun q => decide (c q ≥ L))).filter
            (fun q => active q)) with
      | none => simp only [hpw]; exact ih _ _ _
      | some w =>
        simp only [hpw]
        refine le_trans ?_ (ih _ _ _)
        by_cases hp : p = w
        · subst hp
          simp only [Function.update_same]
          have hlen : (0 : ℚ) ≤ ((List.finRange 3).filter
              (fun q => decide (c q ≥ L))).length := by positivity
          nlinarith [not_le.mp hslice]
        · simp [Function.update_apply, hp]



theorem resolveLevels_sum (holes : Player → List ℕ) (board : List ℕ)
    (active : Player → Bool) (c : Player → ℚ) :
    ∀ (levels : List ℚ) (prev : ℚ) (stx : Player → ℚ),
    levels.Pairwise (· < ·) →
    (∀ L ∈ levels, prev < L) →
    (∀ p, prev < c p → c p ∈ levels) →
    (∀ L ∈ levels, ∃ p, c p = L) →
    (∀ L ∈ levels, ∃ p, active p = true ∧ L ≤ c p) →
    sumP (resolveLevels holes board active c levels prev stx) =
      sumP stx + ∑ p ∈ Finset.univ.filter (fun p => prev < c p), (c p - prev) := by
  intro levels
  induction levels with
  | nil =>
    intro prev stx _ _ h3 _ _
    have hempty : Finset.univ.filter (fun p => prev < c p) = (∅ : Finset Player) := by
      ext p
      simp only [Finset.mem_filter, Finset.mem_univ, true_and, Finset.not_mem_empty,
        iff_false]
      intro hc
      exact (List.not_mem_nil _) (h3 p hc)
    simp [resolveLevels, hempty]
  | cons L rest ih =>
    intro prev stx h1 h2 h3 h4 h5
    have hLmem : L ∈ L :: rest := List.mem_cons_self _ _
    have hprevL : prev < L := h2 L hLmem
    -- the count of eligible players is positive
    have hcard : 1 ≤ (Finset.univ.filter (fun p => L ≤ c p)).card := by
      rcases h4 L hLmem with ⟨p, hp⟩
      refine Finset.card_pos.mpr ⟨p, ?_⟩
      simp [Finset.mem_filter, hp.ge]
    have hlen : ((List.finRange 3).filter (fun p => decide (c p ≥ L))).length =
        (Finset.univ.filter (fun p => L ≤ c p)).card := by
      rw [listFilterLen]
      congr 1
      ext p
      simp [ge_iff_le]
    have hslice : ¬ ((L - prev) *
        ((List.finRange 3).filter (fun p => decide (c p ≥ L))).length ≤ 0) := by
      rw [hlen]
      push_neg
      have : (0 : ℚ) < (Finset.univ.filter (fun p => L ≤ c p)).card := by
        exact_mod_cast hcard
      nlinarith
    -- the eligible winners list is nonempty
    have hwin : (((List.finRange 3).filter (fun p => decide (c p ≥ L))).filter
        (fun p => active p)) ≠ [] := by
      rcases h5 L hLmem with ⟨p, hact, hcp⟩
      intro hnil
      have : p ∈ (((List.finRange 3).filter (fun p => decide (c p ≥ L))).filter
          (fun p => active p)) := by
        simp [List.mem_filter, List.mem_finRange, hact, ge_iff_le, hcp]
      rw [hnil] at this
      exact (List.not_mem_nil _) this
    rcases pickWinner_spec holes board _ hwin with ⟨w, hw, _⟩
    simp only [resolveLevels, if_neg hslice, hw]
    -- hypotheses for the tail
    have h1t : rest.Pairwise (· < ·) := (List.pairwise_cons.mp h1).2
    have hLlt : ∀ x ∈ rest, L < x := (List.pairwise_cons.mp h1).1
    have h2t : ∀ x ∈ rest, L < x := hLlt
    have h3t : ∀ p, L < c p → c p ∈ rest := by
      intro p hp
      rcases h3 p (lt_trans hprevL hp) with hmem
      rcases List.mem_cons.mp hmem with h | h
      · exact absurd h (by intro he; rw [he] at hp; exact lt_irrefl _ hp)
      · exact h
    have h4t : ∀ x ∈ rest, ∃ p, c p = x := fun x hx => h4 x (List.mem_cons_of_mem _ hx)
    have h5t : ∀ x ∈ rest, ∃ p, active p = true ∧ x ≤ c p :=
      fun x hx => h5 x (List.mem_cons_of_mem _ hx)
    rw [ih L _ h1t h2t h3t h4t h5t]
    rw [sumP_update]
    -- now pure Finset algebra
    have hsetEq : Finset.univ.filter (fun p => prev < c p) =
        Finset.univ.filter (fun p => L ≤ c p) := by
      ext p
      simp only [Finset.mem_filter, Finset.mem_univ, true_and]
      constructor
      · intro hp
        rcases List.mem_cons.mp (h3 p hp) with h | h
        · exact le_of_eq h.symm
        · exact le_of_lt (hLlt _ h)
      · intro hp
        exact lt_of_lt_of_le hprevL hp
    have hsub : Finset.univ.filter (fun p => L < c p) ⊆
        Finset.univ.filter (fun p => L ≤ c p) := by
      intro p hp
      simp only [Finset.mem_filter, Finset.mem_univ, true_and] at hp ⊢
      exact le_of_lt hp
    have hzero : ∀ p ∈ Finset.univ.filter (fun p => L ≤ c p),
        p ∉ Finset.univ.filter (fun p => L < c p) → c p - L = 0 := by
      intro p hp hnp
      simp only [Finset.mem_filter, Finset.mem_univ, true_and] at hp hnp
      have : c p = L := le_antisymm (not_lt.mp hnp) hp
      rw [this]; ring
    have hsplit : ∑ p ∈ Finset.univ.filter (fun p => L < c p), (c p - L) =
        ∑ p ∈ Finset.univ.filter (fun p => L ≤ c p), (c p - L) :=
      Finset.sum_subset hsub hzero
    have hexpand : ∑ p ∈ Finset.univ.filter (fun p => L ≤ c p), (c p - prev) =
        ∑ p ∈ Finset.univ.filter (fun p => L ≤ c p), ((L - prev) + (c p - L)) := by
      apply Finset.sum_congr rfl
      intro p _
      ring
    conv_rhs => rw [hsetEq, hexpand, Finset.sum_add_distrib, Finset.sum_const,
      nsmul_eq_mul, ← hsplit]
    rw [hlen]
    ring




/-- The chip facts needed at a resolution point. -/
structure ResolveHyps (s : NLHEState) : Prop where
  hdone : s.done = false
  hcons : sumStacks s + s.pot = 3 * STARTING_STACK_BB
  hnonneg : ∀ p, 0 ≤ s.stacks p
  hle : ∀ p, s.stacks p ≤ STARTING_STACK_BB
  hcov : ∀ f, s.active f = false → ∃ p, s.active p = true ∧ s.stacks p ≤ s.stacks f
  hex : ∃ p, s.active p = true
  hbets : ∀ p, 0 ≤ s.bets p
  hlra : 0 ≤ s.last_raise_amount
  hallin : ∀ p, s.all_in p = false → 0 < s.stacks p

theorem mem_potLevels (c : Player → ℚ) (L : ℚ) :
    L ∈ potLevels c ↔ ∃ p, 0 < c p ∧ c p = L := by
  unfold potLevels
  rw [Finset.mem_sort, List.mem_toFinset, List.mem_filterMap]
  constructor
  · rintro ⟨p, -, hp⟩
    by_cases h : c p > 0
    · rw [if_pos h] at hp
      exact ⟨p, h, Option.some_injective _ hp⟩
    · rw [if_neg h] at hp
      exact absurd hp (by simp)
  · rintro ⟨p, h0, hL⟩
    exact ⟨p, List.mem_finRange p, by rw [if_pos h0, hL]⟩

theorem sumP_le_sixty (f : Player → ℚ) (hle : ∀ p, f p ≤ STARTING_STACK_BB) :
    sumP f ≤ 3 * STARTING_STACK_BB := by
  have h0 := hle 0
  have h1 := hle 1
  have h2 := hle 2
  unfold sumP STARTING_STACK_BB at *
  linarith

/-- Resolution establishes the `done`-side of the invariant. -/
theorem inv_resolve_hand (s : NLHEState) (h : ResolveHyps s) : Inv (resolve_hand s) := by
  have hpot : 0 ≤ s.pot := by
    have h60 := sumP_le_sixty s.stacks h.hle
    have hc := h.hcons
    rw [sumStacks_eq] at hc
    linarith
  unfold resolve_hand
  by_cases hlen : (activeList { s with done := true }).length = 1
  · rw [if_pos hlen]
    set w := (activeList { s with done := true }).headD 0 with hw
    have hsum : sumP (Function.update s.stacks w (s.stacks w + s.pot)) =
        3 * STARTING_STACK_BB := by
      rw [sumP_update]
      have hc := h.hcons
      rw [sumStacks_eq] at hc
      linarith
    refine ⟨?_, ?_, ?_, ?_, ?_, ?_, ?_, ?_, ?_, ?_, ?_, ?_, ?_⟩
    · intro hfalse; simp at hfalse
    · intro _; exact hsum
    · intro p
      by_cases hp : p = w
      · subst hp; simp only [Function.update_same]
        have := h.hnonneg w; linarith
      · simp only [Function.update_apply, if_neg hp]; exact h.hnonneg p
    · intro hfalse; simp at hfalse
    · exact h.hbets
    · exact h.hlra
    · intro hfalse; simp at hfalse
    · intro hfalse; simp at hfalse
    · intro hfalse; simp at hfalse
    · intro hfalse; simp at hfalse
    · intro p hp
      have := h.hallin p hp
      by_cases hpw : p = w
      · subst hpw; simp only [Function.update_same]; linarith
      · simp only [Function.update_apply, if_neg hpw]; exact this
    · intro hfalse; simp at hfalse
    · intro hfalse; simp at hfalse
  · rw [if_neg hlen]
    unfold resolve_side_pots
    set c : Player → ℚ := fun p => STARTING_STACK_BB - s.stacks p with hc
    have hcnonneg : ∀ p, 0 ≤ c p := by
      intro p; have := h.hle p; simp [hc]; linarith
    have hlevels := resolveLevels_sum s.hole_cards s.board s.active c
      (potLevels c) 0 s.stacks
      (Finset.sort_sorted_lt _)
      (by intro L hL; rcases (mem_potLevels c L).mp hL with ⟨p, h0, hLp⟩; rw [← hLp]; exact h0)
      (by intro p hp; exact (mem_potLevels c _).mpr ⟨p, hp, rfl⟩)
      (by intro L hL; rcases (mem_potLevels c L).mp hL with ⟨p, _, hLp⟩; exact ⟨p, hLp⟩)
      (by
        intro L hL
        rcases (mem_potLevels c L).mp hL with ⟨x, h0, hLx⟩
        by_cases hx : s.active x = true
        · exact ⟨x, hx, le_of_eq hLx.symm⟩
        · rcases h.hcov x (by simpa using hx) with ⟨p, hp, hps⟩
          refine ⟨p, hp, ?_⟩
          rw [← hLx]
          simp only [hc]
          linarith)
    have hmono := resolveLevels_mono s.hole_cards s.board s.active c (potLevels c) 0 s.stacks
    have hfull : ∑ p ∈ Finset.univ.filter (fun p => (0:ℚ) < c p), (c p - 0) =
        ∑ p : Player, c p := by
      rw [Finset.sum_congr rfl (fun p _ => by ring : ∀ p ∈ Finset.univ.filter (fun p => (0:ℚ) < c p), c p - 0 = c p)]
      apply Finset.sum_subset (Finset.filter_subset _ _)
      intro p _ hp
      simp only [Finset.mem_filter, Finset.mem_univ, true_and, not_lt] at hp
      have h1 := hcnonneg p
      have h2 : c p ≤ 0 := hp
      show c p = 0
      exact le_antisymm h2 h1
    have hsumc : ∑ p : Player, c p = 3 * STARTING_STACK_BB - sumP s.stacks := by
      rw [Fin.sum_univ_three]
      simp only [hc]
      rw [sumP]
      ring
    have hsum : sumP (resolveLevels s.hole_cards s.board s.active c (potLevels c) 0 s.stacks) =
        3 * STARTING_STACK_BB := by
      rw [hlevels, hfull, hsumc]
      have := h.hcons
      rw [sumStacks_eq] at this
      linarith
    refine ⟨?_, ?_, ?_, ?_, ?_, ?_, ?_, ?_, ?_, ?_, ?_, ?_, ?_⟩
    · intro hfalse; simp at hfalse
    · intro _; exact hsum
    · intro p; exact le_trans (h.hnonneg p) (hmono p)
    · intro hfalse; simp at hfalse
    · exact h.hbets
    · exact h.hlra
    · intro hfalse; simp at hfalse
    · intro hfalse; simp at hfalse
    · intro hfalse; simp at hfalse
    · intro hfalse; simp at hfalse
    · intro p hp; exact lt_of_lt_of_le (h.hallin p hp) (hmono p)
    · intro hfalse; simp at hfalse
    · intro hfalse; simp at hfalse


theorem dealN_fields (k : ℕ) : ∀ (s : NLHEState),
    (dealN s k).stacks = s.stacks ∧ (dealN s k).pot = s.pot ∧
    (dealN s k).bets = s.bets ∧ (dealN s k).active = s.active ∧
    (dealN s k).all_in = s.all_in ∧ (dealN s k).done = s.done ∧
    (dealN s k).last_raise_amount = s.last_raise_amount ∧
    (dealN s k).chance_pending = s.chance_pending ∧
    (dealN s k).current_player = s.current_player ∧
    (dealN s k).last_raiser = s.last_raiser ∧
    (dealN s k).round_idx = s.round_idx ∧
    (dealN s k).action_history = s.action_history ∧
    (dealN s k).undo_stack = s.undo_stack ∧
    (dealN s k).hole_cards = s.hole_cards ∧
    (dealN s k).board.length = s.board.length + k := by
  induction k with
  | zero => intro s; simp [dealN]
  | succ m ih =>
    intro s
    obtain ⟨a1,a2,a3,a4,a5,a6,a7,a8,a9,a10,a11,a12,a13,a14,a15⟩ := ih (dealOne s)
    simp only [dealN]
    refine ⟨a1, a2, a3, a4, a5, a6, a7, a8, a9, a10, a11, a12, a13, a14, ?_⟩
    rw [a15]
    have hone : (dealOne s).board.length = s.board.length + 1 := by simp [dealOne]
    omega

theorem resolveHyps_transfer (s t : NLHEState)
    (hst : t.stacks = s.stacks) (hpot : t.pot = s.pot) (hbets : t.bets = s.bets)
    (hact : t.active = s.active) (hai : t.all_in = s.all_in)
    (hdone : t.done = s.done)
    (hlra : t.last_raise_amount = s.last_raise_amount)
    (h : ResolveHyps s) : ResolveHyps t := by
  constructor
  · rw [hdone]; exact h.hdone
  · show t.stacks 0 + t.stacks 1 + t.stacks 2 + t.pot = _
    rw [hst, hpot]; exact h.hcons
  · rw [hst]; exact h.hnonneg
  · rw [hst]; exact h.hle
  · rw [hact, hst]; exact h.hcov
  · rw [hact]; exact h.hex
  · rw [hbets]; exact h.hbets
  · rw [hlra]; exact h.hlra
  · rw [hai, hst]; exact h.hallin

theorem inv_run_out_aux : ∀ (m : ℕ) (s : NLHEState), 5 - s.board.length ≤ m →
    ResolveHyps s → Inv (run_out_board_and_resolve s) := by
  intro m
  induction m with
  | zero =>
    intro s hm h
    rw [run_out_board_and_resolve]
    rw [dif_neg (by omega)]
    exact inv_resolve_hand s h
  | succ m ih =>
    intro s hm h
    rw [run_out_board_and_resolve]
    by_cases h5 : s.board.length < 5
    · rw [dif_pos h5]
      have hf := dealN_fields (if s.round_idx = 0 then 3 else 1) s
      apply ih
      · have hlen : (dealN s (if s.round_idx = 0 then 3 else 1)).board.length =
            s.board.length + (if s.round_idx = 0 then 3 else 1) := by tauto
        have hn : 1 ≤ (if s.round_idx = 0 then 3 else 1) := by split <;> norm_num
        simp only [hlen]
        omega
      · apply resolveHyps_transfer s
        · show (dealN s _).stacks = s.stacks; tauto
        · show (dealN s _).pot = s.pot; tauto
        · show (dealN s _).bets = s.bets; tauto
        · show (dealN s _).active = s.active; tauto
        · show (dealN s _).all_in = s.all_in; tauto
        · show (dealN s _).done = s.done; tauto
        · show (dealN s _).last_raise_amount = s.last_raise_amount; tauto
        · exact h
    · rw [dif_neg h5]
      exact inv_resolve_hand s h

theorem inv_run_out (s : NLHEState) (h : ResolveHyps s) :
    Inv (run_out_board_and_resolve s) :=
  inv_run_out_aux (5 - s.board.length) s le_rfl h


theorem preflopRaiseLoop_mem (m st : ℚ) :
    ∀ (cands : List (ℕ × ℚ)) (seen : List ℚ) (a : ℕ),
    a ∈ (preflopRaiseLoop m st cands seen).1 →
    ∃ i t, a = 2 + i ∧ (i, t) ∈ cands ∧ m ≤ t ∧ t ≤ st := by
  intro cands
  induction cands with
  | nil => intro seen a h; cases h
  | cons c rest ih =>
    intro seen a h
    rcases c with ⟨i, t⟩
    simp only [preflopRaiseLoop] at h
    split_ifs at h with h1 h2 h3
    · rcases ih _ _ h with ⟨j, u, hj⟩
      exact ⟨j, u, hj.1, List.mem_cons_of_mem _ hj.2.1, hj.2.2⟩
    · cases h
    · rcases ih _ _ h with ⟨j, u, hj⟩
      exact ⟨j, u, hj.1, List.mem_cons_of_mem _ hj.2.1, hj.2.2⟩
    · rcases List.mem_cons.mp h with h4 | h4
      · exact ⟨i, t, h4, List.mem_cons_self _ _, not_lt.mp h1, not_lt.mp h2⟩
      · rcases ih _ _ h4 with ⟨j, u, hj⟩
        exact ⟨j, u, hj.1, List.mem_cons_of_mem _ hj.2.1, hj.2.2⟩

theorem postflopRaiseLoop_mem (pot tc mb m st : ℚ) :
    ∀ (cands : List (ℕ × ℚ)) (seen : List ℚ) (a : ℕ),
    a ∈ (postflopRaiseLoop pot tc mb m st cands seen).1 →
    ∃ i mult, a = 2 + i ∧ (i, mult) ∈ cands ∧
      (mb > 0 → m ≤ tc + pot * mult) ∧ tc + pot * mult ≤ st := by
  intro cands
  induction cands with
  | nil => intro seen a h; cases h
  | cons c rest ih =>
    intro seen a h
    rcases c with ⟨i, mult⟩
    simp only [postflopRaiseLoop] at h
    split_ifs at h with h1 h2 h3
    · rcases ih _ _ h with ⟨j, u, hj⟩
      exact ⟨j, u, hj.1, List.mem_cons_of_mem _ hj.2.1, hj.2.2⟩
    · rcases ih _ _ h with ⟨j, u, hj⟩
      exact ⟨j, u, hj.1, List.mem_cons_of_mem _ hj.2.1, hj.2.2⟩
    · rcases ih _ _ h with ⟨j, u, hj⟩
      exact ⟨j, u, hj.1, List.mem_cons_of_mem _ hj.2.1, hj.2.2⟩
    · rcases List.mem_cons.mp h with h4 | h4
      · refine ⟨i, mult, h4, List.mem_cons_self _ _, ?_, not_lt.mp h2⟩
        intro hmb
        by_contra hlt
        exact h1 ⟨hmb, not_le.mp hlt⟩
      · rcases ih _ _ h4 with ⟨j, u, hj⟩
        exact ⟨j, u, hj.1, List.mem_cons_of_mem _ hj.2.1, hj.2.2⟩



theorem mem_enum_getD (l : List ℚ) (i : ℕ) (t : ℚ) (h : (i, t) ∈ l.enum) :
    l.getD i 0 = t ∧ i < l.length := by
  rw [List.mem_enum_iff_getElem?] at h
  exact ⟨by simp [List.getD, h], (List.getElem?_eq_some.mp h).1⟩

/-- What membership in `get_legal_action_indices` guarantees, per action. -/
theorem legal_spec (s : NLHEState) (a : ℕ) (h : a ∈ get_legal_action_indices s) :
    (a = 0 ∧ 0 < s.to_call) ∨ a = 1 ∨ a = 9 ∨
    (2 ≤ a ∧ a ≤ 8 ∧ s.round_idx = 0 ∧
      s.min_raise_total ≤ PREFLOP_RAISE_BB.getD (a - 2) 0 ∧
      PREFLOP_RAISE_BB.getD (a - 2) 0 ≤ s.stacks (pIdx s.current_player)) ∨
    (2 ≤ a ∧ a ≤ 8 ∧ s.round_idx ≠ 0 ∧
      (0 < s.max_bet →
        s.min_raise_total ≤
          s.to_call + s.pot_for_acting * POSTFLOP_POT_MULT.getD (a - 2) 0) ∧
      s.to_call + s.pot_for_acting * POSTFLOP_POT_MULT.getD (a - 2) 0 ≤
        s.stacks (pIdx s.current_player)) := by
  have hloopPre : ∀ x, s.round_idx = 0 →
      x ∈ (preflopRaiseLoop s.min_raise_total (s.stacks (pIdx s.current_player))
        PREFLOP_RAISE_BB.enum []).1 →
      2 ≤ x ∧ x ≤ 8 ∧ s.round_idx = 0 ∧
        s.min_raise_total ≤ PREFLOP_RAISE_BB.getD (x - 2) 0 ∧
        PREFLOP_RAISE_BB.getD (x - 2) 0 ≤ s.stacks (pIdx s.current_player) := by
    intro x hr hx
    rcases preflopRaiseLoop_mem _ _ _ _ _ hx with ⟨i, t, hxi, hmem, hm, hst⟩
    rcases mem_enum_getD _ _ _ hmem with ⟨hgd, hlt⟩
    have hlen : PREFLOP_RAISE_BB.length = 7 := by rfl
    have hi2 : x - 2 = i := by omega
    rw [hi2, hgd]
    exact ⟨by omega, by omega, hr, hm, hst⟩
  have hloopPost1 : ∀ x, s.round_idx ≠ 0 →
      x ∈ (postflopRaiseLoop s.pot_for_acting s.to_call s.max_bet
        s.min_raise_total (s.stacks (pIdx s.current_player))
        POSTFLOP_POT_MULT.enum []).1 →
      2 ≤ x ∧ x ≤ 8 ∧ s.round_idx ≠ 0 ∧
        (0 < s.max_bet →
          s.min_raise_total ≤
            s.to_call + s.pot_for_acting * POSTFLOP_POT_MULT.getD (x - 2) 0) ∧
        s.to_call + s.pot_for_acting * POSTFLOP_POT_MULT.getD (x - 2) 0 ≤
          s.stacks (pIdx s.current_player) := by
    intro x hr hx
    rcases postflopRaiseLoop_mem _ _ _ _ _ _ _ _ hx with ⟨i, t, hxi, hmem, hm, hst⟩
    rcases mem_enum_getD _ _ _ hmem with ⟨hgd, hlt⟩
    have hlen : POSTFLOP_POT_MULT.length = 7 := by rfl
    have hi2 : x - 2 = i := by omega
    rw [hi2, hgd]
    exact ⟨by omega, by omega, hr, hm, hst⟩
  have hloopPost0 : ∀ x, s.round_idx ≠ 0 → ¬ (0 < s.max_bet) →
      x ∈ (postflopRaiseLoop s.pot_for_acting s.to_call s.max_bet
        0 (s.stacks (pIdx s.current_player)) POSTFLOP_POT_MULT.enum []).1 →
      2 ≤ x ∧ x ≤ 8 ∧ s.round_idx ≠ 0 ∧
        (0 < s.max_bet →
          s.min_raise_total ≤
            s.to_call + s.pot_for_acting * POSTFLOP_POT_MULT.getD (x - 2) 0) ∧
        s.to_call + s.pot_for_acting * POSTFLOP_POT_MULT.getD (x - 2) 0 ≤
          s.stacks (pIdx s.current_player) := by
    intro x hr hmb hx
    rcases postflopRaiseLoop_mem _ _ _ _ _ _ _ _ hx with ⟨i, t, hxi, hmem, hm, hst⟩
    rcases mem_enum_getD _ _ _ hmem with ⟨hgd, hlt⟩
    have hlen : POSTFLOP_POT_MULT.length = 7 := by rfl
    have hi2 : x - 2 = i := by omega
    rw [hi2, hgd]
    exact ⟨by omega, by omega, hr, fun hb => absurd hb hmb, hst⟩
  unfold get_legal_action_indices at h
  dsimp only at h
  split_ifs at h
  · cases h
  all_goals
    rw [List.mem_mergeSort] at h
  all_goals
    simp only [List.mem_append, List.mem_singleton, List.mem_cons,
      List.not_mem_nil, or_false] at h
  all_goals repeat' rcases h with h | h
  all_goals first
    | (exact Or.inl ⟨rfl, by assumption⟩)
    | (exact Or.inr (Or.inl rfl))
    | (exact Or.inr (Or.inr (Or.inl rfl)))
    | (exact Or.inr (Or.inr (Or.inr (Or.inl (hloopPre _ (by assumption) h)))))
    | (exact Or.inr (Or.inr (Or.inr (Or.inr (hloopPost1 _ (by assumption) h)))))
    | (exact Or.inr (Or.inr (Or.inr (Or.inr (hloopPost0 _ (by assumption) (by assumption) h)))))


theorem others_le_maxOthers (b : Player → ℚ) (p x : Player) (hx : x ≠ p) :
    b x ≤ maxOthers b p := by
  fin_cases p <;> fin_cases x <;> simp_all [maxOthers]

theorem pIdx_cover (i : ℤ) (q : Player) :
    q = pIdx (i + 1) ∨ q = pIdx (i + 2) ∨ q = pIdx (i + 3) := by
  rcases q with ⟨v, hv⟩
  have h1 : v = ((i + 1) % 3).toNat ∨ v = ((i + 2) % 3).toNat ∨
      v = ((i + 3) % 3).toNat := by omega
  rcases h1 with h | h | h
  · exact Or.inl (Fin.ext h)
  · exact Or.inr (Or.inl (Fin.ext h))
  · exact Or.inr (Or.inr (Fin.ext h))

theorem nextPlayerSearch_spec (s : NLHEState) (hex : ∃ q, canAct s q = true) :
    0 ≤ nextPlayerSearch s ∧ nextPlayerSearch s < 3 ∧
    canAct s (pIdx (nextPlayerSearch s)) = true := by
  unfold nextPlayerSearch
  split_ifs with c1 c2 c3
  · refine ⟨by positivity, ?_, ?_⟩
    · exact_mod_cast (pIdx (s.current_player + 1)).isLt
    · rw [show ((((pIdx (s.current_player + 1) : Fin 3) : ℕ) : ℤ)) =
        (((pIdx (s.current_player + 1) : Fin 3) : ℕ) : ℤ) from rfl, pIdx_natCast]
      exact c1
  · refine ⟨by positivity, ?_, ?_⟩
    · exact_mod_cast (pIdx (s.current_player + 2)).isLt
    · rw [pIdx_natCast]; exact c2
  · refine ⟨by positivity, ?_, ?_⟩
    · exact_mod_cast (pIdx (s.current_player + 3)).isLt
    · rw [pIdx_natCast]; exact c3
  · exfalso
    rcases hex with ⟨q, hq⟩
    rcases pIdx_cover s.current_player q with h | h | h
    · rw [h] at hq; exact c1 hq
    · rw [h] at hq; exact c2 hq
    · rw [h] at hq; exact c3 hq

theorem round_complete_bets (s : NLHEState) (h : is_round_complete s = true)
    (p q : Player) (hp : canAct s p = true) (hq : canAct s q = true) :
    s.bets p = s.bets q := by
  unfold is_round_complete at h
  by_cases hca : canActList s = []
  · have := (mem_canActList s p).mpr hp
    rw [hca] at this
    cases this
  · rw [if_neg hca] at h
    dsimp only at h
    split_ifs at h with h2 h3
    all_goals try simp at h
    all_goals
      have hdl : ¬ (((canActList s).map s.bets).dedup.length > 1) := by assumption
      have hpmem : s.bets p ∈ ((canActList s).map s.bets).dedup := by
        rw [List.mem_dedup]
        exact List.mem_map_of_mem _ ((mem_canActList s p).mpr hp)
      have hqmem : s.bets q ∈ ((canActList s).map s.bets).dedup := by
        rw [List.mem_dedup]
        exact List.mem_map_of_mem _ ((mem_canActList s q).mpr hq)
      rcases hd : ((canActList s).map s.bets).dedup with _ | ⟨x, rest⟩
      · rw [hd] at hpmem; cases hpmem
      · rcases rest with _ | ⟨y, rest2⟩
        · rw [hd] at hpmem hqmem
          simp at hpmem hqmem
          rw [hpmem, hqmem]
        · rw [hd] at hdl; simp at hdl


/-- The invariant fragments that hold just after the chip mutation of
`apply_action`, before turn advancement or resolution. -/
structure MidInv (s : NLHEState) : Prop where
  hdone : s.done = false
  hcp : s.chance_pending = false
  conserve : sumStacks s + s.pot = 3 * STARTING_STACK_BB
  stacksNonneg : ∀ p, 0 ≤ s.stacks p
  stacksLe : ∀ p, s.stacks p ≤ STARTING_STACK_BB
  betsNonneg : ∀ p, 0 ≤ s.bets p
  lraNonneg : 0 ≤ s.last_raise_amount
  coverage : ∀ f, s.active f = false →
      ∃ p, s.active p = true ∧ s.stacks p ≤ s.stacks f
  carried : ∀ p q, s.active p = true → s.active q = true →
      (s.all_in p = false ∨ 0 < s.bets p) → (s.all_in q = false ∨ 0 < s.bets q) →
      s.stacks p + s.bets p = s.stacks q + s.bets q
  maxAch : ∃ p, s.active p = true ∧ s.bets p = max3 s.bets
  notAllinPos : ∀ p, s.all_in p = false → 0 < s.stacks p
  maxZeroLra : max3 s.bets = 0 → s.last_raise_amount = 0

theorem midInv_resolveHyps (s : NLHEState) (h : MidInv s) : ResolveHyps s := by
  refine ⟨h.hdone, h.conserve, h.stacksNonneg, h.stacksLe, h.coverage, ?_,
    h.betsNonneg, h.lraNonneg, h.notAllinPos⟩
  rcases h.maxAch with ⟨p, hp, -⟩
  exact ⟨p, hp⟩

/-- Advancement or resolution after the chip mutation keeps the invariant. -/
theorem inv_after_mutation (s : NLHEState) (h : MidInv s) :
    Inv (if activeCount s = 1 then resolve_hand s else advance_to_next_player s) := by
  by_cases hac : activeCount s = 1
  · rw [if_pos hac]
    exact inv_resolve_hand s (midInv_resolveHyps s h)
  · rw [if_neg hac]
    unfold advance_to_next_player
    by_cases hlen : (canActList s).length ≤ 1
    · rw [if_pos hlen]
      exact inv_run_out s (midInv_resolveHyps s h)
    · rw [if_neg hlen]
      by_cases hrc : is_round_complete s = true
      · rw [if_pos hrc]
        by_cases hr3 : s.round_idx ≥ 3
        · rw [if_pos hr3]
          exact inv_resolve_hand s (midInv_resolveHyps s h)
        · rw [if_neg hr3]
          refine ⟨?_, ?_, h.stacksNonneg, ?_, h.betsNonneg, h.lraNonneg, ?_, ?_, ?_,
            ?_, h.notAllinPos, ?_, ?_⟩
          · intro _; exact h.conserve
          · intro hd; rw [h.hdone] at hd; cases hd
          · intro _; exact h.stacksLe
          · intro _; exact h.coverage
          · intro _; exact h.carried
          · intro _; exact h.maxAch
          · intro _ hcpf; cases hcpf
          · intro _ _ p q hp hq
            exact round_complete_bets s hrc p q hp hq
          · intro _; exact h.maxZeroLra
      · rw [if_neg hrc]
        have hex : ∃ q, canAct s q = true := by
          rcases List.exists_mem_of_length_pos (l := canActList s) (by omega) with ⟨q, hq⟩
          exact ⟨q, (mem_canActList s q).mp hq⟩
        rcases nextPlayerSearch_spec s hex with ⟨hs0, hs3, hsc⟩
        refine ⟨?_, ?_, h.stacksNonneg, ?_, h.betsNonneg, h.lraNonneg, ?_, ?_, ?_,
          ?_, h.notAllinPos, ?_, ?_⟩
        · intro _; exact h.conserve
        · intro hd; rw [h.hdone] at hd; cases hd
        · intro _; exact h.stacksLe
        · intro _; exact h.coverage
        · intro _; exact h.carried
        · intro _; exact h.maxAch
        · intro _ _
          refine ⟨hs0, hs3, ?_, ?_⟩
          · exact (Bool.and_eq_true _ _ |>.mp hsc).1
          · have := (Bool.and_eq_true _ _ |>.mp hsc).2
            simpa using this
        · intro _ hcpt
          rw [h.hcp] at hcpt; cases hcpt
        · intro _; exact h.maxZeroLra


theorem max3_zero : max3 (fun _ : Player => (0:ℚ)) = 0 := by
  simp [max3]

theorem firstToActPostflop_spec (s : NLHEState) (p : Player)
    (h : firstToActPostflop s = some p) : canAct s p = true := by
  unfold firstToActPostflop at h
  split_ifs at h with h1 h2 h3 <;>
    injection h with h <;> rw [← h] <;> assumption

/-- `sample_chance` at a chance node keeps the invariant. -/
theorem inv_sample_chance (s : NLHEState) (hInv : Inv s)
    (hcn : is_chance_node s = true) : Inv (sample_chance s) := by
  have hpend : s.chance_pending = true := by
    unfold is_chance_node at hcn
    exact (Bool.and_eq_true _ _ |>.mp hcn).1
  have hdone : s.done = false := by
    unfold is_chance_node at hcn
    have := (Bool.and_eq_true _ _ |>.mp hcn).2
    simpa using this
  unfold sample_chance
  rw [if_neg (by rw [hpend, hdone]; simp)]
  obtain ⟨d1, d2, d3, d4, d5, d6, d7, d8, d9, d10, d11, d12, d13, d14, d15⟩ :=
    dealN_fields (if s.round_idx = 0 then 3 else 1) s
  set t := dealN s (if s.round_idx = 0 then 3 else 1) with ht
  -- the state after history/round/bets bookkeeping, before seating
  cases hfta : firstToActPostflop
      { t with
        action_history := t.action_history ++ [HEntry.deal],
        round_idx := t.round_idx + 1,
        chance_pending := false,
        undo_stack := t.undo_stack ++
          [UndoRec.deal (if s.round_idx = 0 then 3 else 1) t.bets t.last_raiser
            t.last_raise_amount],
        bets := fun _ => 0, last_raiser := -1, last_raise_amount := 0 } with
  | none =>
    simp only [hfta]
    apply inv_run_out
    refine ⟨?_, ?_, ?_, ?_, ?_, ?_, ?_, ?_, ?_⟩
    · show t.done = false
      rw [d6, hdone]
    · show t.stacks 0 + t.stacks 1 + t.stacks 2 + t.pot = _
      rw [d1, d2]
      exact hInv.conserve hdone
    · show ∀ p, 0 ≤ t.stacks p
      rw [d1]; exact hInv.stacksNonneg
    · show ∀ p, t.stacks p ≤ _
      rw [d1]; exact hInv.stacksLe hdone
    · show ∀ f, t.active f = false → ∃ p, t.active p = true ∧ t.stacks p ≤ t.stacks f
      rw [d1, d4]; exact hInv.coverage hdone
    · show ∃ p, t.active p = true
      rw [d4]
      rcases hInv.maxAch hdone with ⟨p, hp, -⟩
      exact ⟨p, hp⟩
    · show ∀ p : Player, (0:ℚ) ≤ 0
      intro p; exact le_refl 0
    · show (0:ℚ) ≤ 0
      exact le_refl 0
    · show ∀ p, t.all_in p = false → 0 < t.stacks p
      rw [d1, d5]; exact hInv.notAllinPos
  | some p =>
    simp only [hfta]
    have hcap : canAct s p = true := by
      have h0 := firstToActPostflop_spec _ _ hfta
      unfold canAct at h0
      dsimp only at h0
      unfold canAct
      rw [← d4, ← d5]
      exact h0
    have hactp : s.active p = true := (Bool.and_eq_true _ _ |>.mp hcap).1
    have hainp : s.all_in p = false := by
      have := (Bool.and_eq_true _ _ |>.mp hcap).2
      simpa using this
    refine ⟨?_, ?_, ?_, ?_, ?_, ?_, ?_, ?_, ?_, ?_, ?_, ?_, ?_⟩
    · intro _
      show t.stacks 0 + t.stacks 1 + t.stacks 2 + t.pot = _
      rw [d1, d2]
      exact hInv.conserve hdone
    · intro hd
      exfalso
      have hdt : t.done = true := hd
      rw [d6, hdone] at hdt
      cases hdt
    · show ∀ q, 0 ≤ t.stacks q
      rw [d1]; exact hInv.stacksNonneg
    · intro _
      show ∀ q, t.stacks q ≤ _
      rw [d1]; exact hInv.stacksLe hdone
    · show ∀ q, (0:ℚ) ≤ 0
      intro q; exact le_refl 0
    · show (0:ℚ) ≤ 0
      exact le_refl 0
    · intro _
      show ∀ f, t.active f = false → ∃ q, t.active q = true ∧ t.stacks q ≤ t.stacks f
      rw [d1, d4]; exact hInv.coverage hdone
    · intro _ x y hx hy hfx hfy
      show t.stacks x + 0 = t.stacks y + 0
      replace hx : t.active x = true := hx
      replace hy : t.active y = true := hy
      rw [d4] at hx hy
      have hfx2 : s.all_in x = false := by
        rcases hfx with hf | hf
        · rw [d5] at hf; exact hf
        · exact absurd hf (by simp)
      have hfy2 : s.all_in y = false := by
        rcases hfy with hf | hf
        · rw [d5] at hf; exact hf
        · exact absurd hf (by simp)
      have hbeq : s.bets x = s.bets y := by
        apply hInv.chanceBetsEq hdone hpend <;>
          simp [canAct, hx, hy, hfx2, hfy2]
      have hcar := hInv.carried hdone x y hx hy (Or.inl hfx2) (Or.inl hfy2)
      rw [d1]
      linarith
    · intro _
      rcases hInv.maxAch hdone with ⟨q, hq, -⟩
      refine ⟨q, ?_, ?_⟩
      · show t.active q = true
        rw [d4]; exact hq
      · show (0:ℚ) = max3 (fun _ => 0)
        rw [max3_zero]
    · intro _ _
      refine ⟨?_, ?_, ?_, ?_⟩
      · show (0:ℤ) ≤ ((p : ℕ) : ℤ)
        positivity
      · show ((p : ℕ) : ℤ) < 3
        exact_mod_cast p.isLt
      · show t.active (pIdx ((p : ℕ) : ℤ)) = true
        rw [pIdx_natCast, d4]; exact hactp
      · show t.all_in (pIdx ((p : ℕ) : ℤ)) = false
        rw [pIdx_natCast, d5]; exact hainp
    · show ∀ q, t.all_in q = false → 0 < t.stacks q
      rw [d1, d5]; exact hInv.notAllinPos
    · intro _ hcpt
      cases hcpt
    · intro _ _
      rfl


theorem maxOthers_update_self (b : Player → ℚ) (p : Player) (v : ℚ) :
    maxOthers (Function.update b p v) p = maxOthers b p := by
  fin_cases p <;> simp [maxOthers, Function.update_apply, Fin.ext_iff]

theorem apply_chips_fields (t : NLHEState) (p : Player) (total : ℚ) :
    (apply_chips t p total).stacks =
      Function.update t.stacks p (t.stacks p - (total - t.bets p)) ∧
    (apply_chips t p total).bets = Function.update t.bets p total ∧
    (apply_chips t p total).pot = t.pot + (total - t.bets p) ∧
    (apply_chips t p total).active = t.active ∧
    (apply_chips t p total).done = t.done ∧
    (apply_chips t p total).chance_pending = t.chance_pending ∧
    (apply_chips t p total).current_player = t.current_player ∧
    (apply_chips t p total).all_in =
      (if t.stacks p - (total - t.bets p) ≤ 0 then Function.update t.all_in p true
       else t.all_in) ∧
    (apply_chips t p total).last_raise_amount =
      (if total - t.bets p > 0 ∧ total > maxOthers t.bets p then total - t.bets p
       else t.last_raise_amount) ∧
    (apply_chips t p total).last_raiser =
      (if total - t.bets p > 0 ∧ total > maxOthers t.bets p then ((p : ℕ) : ℤ)
       else t.last_raiser) := by
  unfold apply_chips
  dsimp only
  rw [maxOthers_update_self]
  split_ifs <;> simp_all [Function.update_same]

/-- The invariant transfers along equality of the engine-relevant fields. -/
theorem inv_transfer (s t : NLHEState)
    (hst : t.stacks = s.stacks) (hpot : t.pot = s.pot) (hbets : t.bets = s.bets)
    (hact : t.active = s.active) (hai : t.all_in = s.all_in)
    (hdone : t.done = s.done) (hcp : t.chance_pending = s.chance_pending)
    (hcpl : t.current_player = s.current_player)
    (hlra : t.last_raise_amount = s.last_raise_amount)
    (h : Inv s) : Inv t := by
  have hsum : sumStacks t = sumStacks s := by
    show t.stacks 0 + t.stacks 1 + t.stacks 2 = _
    rw [hst]; rfl
  refine ⟨?_, ?_, ?_, ?_, ?_, ?_, ?_, ?_, ?_, ?_, ?_, ?_, ?_⟩
  · rw [hdone, hsum, hpot]; exact h.conserve
  · rw [hdone, hsum]; exact h.doneSum
  · rw [hst]; exact h.stacksNonneg
  · rw [hdone, hst]; exact h.stacksLe
  · rw [hbets]; exact h.betsNonneg
  · rw [hlra]; exact h.lraNonneg
  · rw [hdone, hact, hst]; exact h.coverage
  · rw [hdone, hact, hai, hst, hbets]; exact h.carried
  · rw [hdone, hact, hbets]; exact h.maxAch
  · rw [hdone, hcp, hcpl, hact, hai]; exact h.cpValid
  · rw [hai, hst]; exact h.notAllinPos
  · intro h1 h2 x y hx hy
    rw [hbets]
    refine h.chanceBetsEq (hdone ▸ h1) (hcp ▸ h2) x y ?_ ?_ <;>
      [(unfold canAct at hx ⊢; rw [← hact, ← hai]; exact hx);
       (unfold canAct at hy ⊢; rw [← hact, ← hai]; exact hy)]
  · rw [hdone, hbets, hlra]; exact h.maxZeroLra


theorem midInv_fold (t : NLHEState) (hInv : Inv t) (hdone : t.done = false)
    (hcp : t.chance_pending = false)
    (hact : t.active (pIdx t.current_player) = true)
    (hain : t.all_in (pIdx t.current_player) = false)
    (htc : 0 < t.to_call) :
    MidInv (apply_fold t (pIdx t.current_player)) := by
  set p := pIdx t.current_player with hpdef
  obtain ⟨q, hq, hqmax⟩ := hInv.maxAch hdone
  have hbp : t.bets p < max3 t.bets := by
    have h1 : t.to_call = max3 t.bets - t.bets p := rfl
    linarith
  have hqp : q ≠ p := by
    intro he
    rw [← he, hqmax] at hbp
    exact lt_irrefl _ hbp
  have hqflag : 0 < t.bets q := by
    have := hInv.betsNonneg p
    rw [hqmax]
    linarith
  have hstq : t.stacks q < t.stacks p := by
    have hcar := hInv.carried hdone q p hq hact (Or.inr hqflag) (Or.inl hain)
    have : t.bets p < t.bets q := by rw [hqmax]; exact hbp
    linarith
  refine ⟨hdone, hcp, hInv.conserve hdone, hInv.stacksNonneg, hInv.stacksLe hdone,
    hInv.betsNonneg, hInv.lraNonneg, ?_, ?_, ?_, hInv.notAllinPos,
    hInv.maxZeroLra hdone⟩
  · intro f hf
    replace hf : Function.update t.active p false f = false := hf
    show ∃ w, Function.update t.active p false w = true ∧ t.stacks w ≤ t.stacks f
    by_cases hfp : f = p
    · subst hfp
      exact ⟨q, by rw [Function.update_apply, if_neg hqp]; exact hq, le_of_lt hstq⟩
    · rw [Function.update_apply, if_neg hfp] at hf
      obtain ⟨w, hw, hws⟩ := hInv.coverage hdone f hf
      by_cases hwp : w = p
      · subst hwp
        exact ⟨q, by rw [Function.update_apply, if_neg hqp]; exact hq,
          le_trans (le_of_lt hstq) hws⟩
      · exact ⟨w, by rw [Function.update_apply, if_neg hwp]; exact hw, hws⟩
  · intro x y hx hy hfx hfy
    replace hx : Function.update t.active p false x = true := hx
    replace hy : Function.update t.active p false y = true := hy
    replace hfx : t.all_in x = false ∨ 0 < t.bets x := hfx
    replace hfy : t.all_in y = false ∨ 0 < t.bets y := hfy
    have hxp : x ≠ p := by
      intro he
      rw [he, Function.update_same] at hx
      cases hx
    have hyp : y ≠ p := by
      intro he
      rw [he, Function.update_same] at hy
      cases hy
    rw [Function.update_apply, if_neg hxp] at hx
    rw [Function.update_apply, if_neg hyp] at hy
    show t.stacks x + t.bets x = t.stacks y + t.bets y
    exact hInv.carried hdone x y hx hy hfx hfy
  · refine ⟨q, ?_, hqmax⟩
    show Function.update t.active p false q = true
    rw [Function.update_apply, if_neg hqp]
    exact hq


theorem midInv_chips (t : NLHEState) (hInv : Inv t) (hdone : t.done = false)
    (hcp : t.chance_pending = false)
    (hact : t.active (pIdx t.current_player) = true)
    (hain : t.all_in (pIdx t.current_player) = false)
    (total : ℚ) (hlo : t.bets (pIdx t.current_player) ≤ total)
    (hhi : total - t.bets (pIdx t.current_player) ≤
      t.stacks (pIdx t.current_player)) :
    MidInv (apply_chips t (pIdx t.current_player) total) := by
  set p := pIdx t.current_player with hpdef
  obtain ⟨f1, f2, f3, f4, f5, f6, f7, f8, f9, f10⟩ := apply_chips_fields t p total
  set r := apply_chips t p total with hr
  have hadd : 0 ≤ total - t.bets p := by linarith
  refine ⟨?_, ?_, ?_, ?_, ?_, ?_, ?_, ?_, ?_, ?_, ?_, ?_⟩
  · rw [f5]; exact hdone
  · rw [f6]; exact hcp
  · -- conservation
    have hsum : sumStacks r = sumStacks t - (total - t.bets p) := by
      show r.stacks 0 + r.stacks 1 + r.stacks 2 = _
      rw [f1]
      have := sumP_update t.stacks p (t.stacks p - (total - t.bets p))
      unfold sumP at this
      show _ = t.stacks 0 + t.stacks 1 + t.stacks 2 - _
      linarith
    rw [hsum, f3]
    have := hInv.conserve hdone
    unfold sumStacks at *
    linarith
  · intro z
    rw [f1, Function.update_apply]
    split_ifs with hz
    · linarith
    · exact hInv.stacksNonneg z
  · intro z
    rw [f1, Function.update_apply]
    split_ifs with hz
    · have := hInv.stacksLe hdone p
      linarith
    · exact hInv.stacksLe hdone z
  · intro z
    rw [f2, Function.update_apply]
    split_ifs with hz
    · have := hInv.betsNonneg p; linarith
    · exact hInv.betsNonneg z
  · rw [f9]
    split_ifs with hc
    · linarith [hc.1]
    · exact hInv.lraNonneg
  · -- coverage
    intro f hf
    rw [f4] at hf
    have hfp : f ≠ p := by
      intro he
      rw [he, hact] at hf
      cases hf
    obtain ⟨w, hw, hws⟩ := hInv.coverage hdone f hf
    rw [f4, f1]
    by_cases hwp : w = p
    · subst hwp
      refine ⟨p, hw, ?_⟩
      rw [Function.update_same, Function.update_apply, if_neg hfp]
      linarith
    · refine ⟨w, hw, ?_⟩
      rw [Function.update_apply, if_neg hwp, Function.update_apply, if_neg hfp]
      exact hws
  · -- carried
    intro x y hx hy hfx hfy
    rw [f4] at hx hy
    rw [f8, f2] at hfx hfy
    rw [f1, f2]
    have hval : ∀ z, Function.update t.stacks p (t.stacks p - (total - t.bets p)) z +
        Function.update t.bets p total z = t.stacks z + t.bets z := by
      intro z
      rw [Function.update_apply, Function.update_apply]
      split_ifs with hz
      · subst hz; ring
      · rfl
    rw [hval x, hval y]
    have hflag : ∀ z, z = p ∨
        ((if t.stacks p - (total - t.bets p) ≤ 0 then
            Function.update t.all_in p true else t.all_in) z = false ∨
          0 < Function.update t.bets p total z) →
        (t.all_in z = false ∨ 0 < t.bets z) := by
      intro z hz
      rcases hz with hz | hz
      · subst hz; exact Or.inl hain
      · rcases hz with hz | hz
        · by_cases hzp : z = p
          · subst hzp; exact Or.inl hain
          · split_ifs at hz with hcond
            · rw [Function.update_apply, if_neg hzp] at hz
              exact Or.inl hz
            · exact Or.inl hz
        · by_cases hzp : z = p
          · subst hzp; exact Or.inl hain
          · rw [Function.update_apply, if_neg hzp] at hz
            exact Or.inr hz
    exact hInv.carried hdone x y hx hy (hflag x (Or.inr hfx)) (hflag y (Or.inr hfy))
  · -- max achiever
    have hmax : max3 r.bets = max (maxOthers t.bets p) total := by
      rw [f2, max3_update]
    rcases le_total (max3 t.bets) total with hcase | hcase
    · refine ⟨p, ?_, ?_⟩
      · rw [f4]; exact hact
      · rw [hmax, f2, Function.update_same]
        rw [max_eq_right (le_trans (maxOthers_le_max3 t.bets p) hcase)]
    · obtain ⟨q, hq, hqmax⟩ := hInv.maxAch hdone
      by_cases hqp : q = p
      · -- then max3 t.bets = t.bets p ≤ total ≤ max3, so total = max3
        rw [hqp] at hqmax
        have h1 : total = max3 t.bets := le_antisymm hcase (by rw [← hqmax]; exact hlo)
        refine ⟨p, ?_, ?_⟩
        · rw [f4]; exact hact
        · rw [hmax, f2, Function.update_same]
          rw [max_eq_right (le_trans (maxOthers_le_max3 t.bets p) (le_of_eq h1.symm))]
      · refine ⟨q, ?_, ?_⟩
        · rw [f4]; exact hq
        · rw [hmax, f2, Function.update_apply, if_neg hqp]
          have h1 : t.bets q ≤ maxOthers t.bets p := others_le_maxOthers t.bets p q hqp
          have h2 : maxOthers t.bets p ≤ max3 t.bets := maxOthers_le_max3 t.bets p
          have h3 : maxOthers t.bets p = t.bets q :=
            le_antisymm (h2.trans (le_of_eq hqmax.symm)) h1
          have h4 : total ≤ t.bets q := by rw [hqmax]; exact hcase
          rw [h3, max_eq_left h4]
  · -- not all-in implies positive stack
    intro z hz
    rw [f8] at hz
    rw [f1]
    split_ifs at hz with hcond
    · by_cases hzp : z = p
      · subst hzp
        rw [Function.update_same] at hz
        cases hz
      · rw [Function.update_apply, if_neg hzp] at hz
        rw [Function.update_apply, if_neg hzp]
        exact hInv.notAllinPos z hz
    · by_cases hzp : z = p
      · subst hzp
        rw [Function.update_same]
        linarith [not_le.mp hcond]
      · rw [Function.update_apply, if_neg hzp]
        exact hInv.notAllinPos z hz
  · -- zero max keeps zero min-raise
    intro hm
    rw [f2, max3_update] at hm
    have htot0 : total ≤ 0 := by
      have := le_max_right (maxOthers t.bets p) total
      rw [hm] at this
      exact this
    have hmo0 : maxOthers t.bets p ≤ 0 := by
      have := le_max_left (maxOthers t.bets p) total
      rw [hm] at this
      exact this
    have hbp0 : t.bets p = 0 := le_antisymm (by linarith) (hInv.betsNonneg p)
    have hup : ∀ z : Player, t.bets z ≤ 0 := by
      intro z
      by_cases hzp : z = p
      · exact le_of_eq (by rw [hzp, hbp0])
      · exact le_trans (others_le_maxOthers t.bets p z hzp) hmo0
    have hm3 : max3 t.bets = 0 := by
      refine le_antisymm ?_ ?_
      · rw [max3_le_iff]
        exact ⟨hup 0, hup 1, hup 2⟩
      · rw [← hbp0]
        exact max3_ge t.bets p
    have hlra0 := hInv.maxZeroLra hdone hm3
    rw [f9]
    split_ifs with hc
    · linarith [hc.1]
    · exact hlra0


theorem chips_not_fold (s : NLHEState) (a : ℕ) (ha : a ≠ 0) :
    (action_index_to_chips s a).1 = false := by
  unfold action_index_to_chips
  dsimp only
  split_ifs <;> first | rfl | (exact absurd (by assumption) ha)

theorem postflop_mult_nonneg (j : ℕ) : 0 ≤ POSTFLOP_POT_MULT.getD j 0 := by
  rcases j with _|_|_|_|_|_|_|j <;> norm_num [POSTFLOP_POT_MULT]

/-- For every legal non-fold action, the new street total is at least the
actor's current street bet and the chips added fit in the stack. -/
theorem legal_chips_bounds (s : NLHEState) (a : ℕ) (hInv : Inv s)
    (hdone : s.done = false) (hcp : s.chance_pending = false)
    (hleg : a ∈ get_legal_action_indices s) (hne : a ≠ 0) :
    s.bets (pIdx s.current_player) ≤ (action_index_to_chips s a).2 ∧
    (action_index_to_chips s a).2 - s.bets (pIdx s.current_player) ≤
      s.stacks (pIdx s.current_player) := by
  have hspec := legal_spec s a hleg
  have hpot : 0 ≤ s.pot := by
    have h60 := sumP_le_sixty s.stacks (hInv.stacksLe hdone)
    have hc := hInv.conserve hdone
    rw [sumStacks_eq] at hc
    linarith
  rcases hspec with ⟨h0, htc⟩ | h1 | h9 | ⟨h2a, h8a, hpre, hminr, hstk⟩ |
    ⟨h2a, h8a, hpost, hminr, hstk⟩
  · exact absurd h0 hne
  · subst h1
    constructor
    · by_cases htc0 : s.to_call > 0
      · have htot : (action_index_to_chips s 1).2 = s.bets (pIdx s.current_player) +
            min s.to_call (s.stacks (pIdx s.current_player)) := by
          unfold action_index_to_chips
          dsimp only
          rw [if_neg (by norm_num), if_pos rfl, if_pos htc0]
        rw [htot]
        have hmin : 0 ≤ min s.to_call (s.stacks (pIdx s.current_player)) :=
          le_min (le_of_lt htc0) (hInv.stacksNonneg _)
        linarith
      · have htot : (action_index_to_chips s 1).2 = s.bets (pIdx s.current_player) := by
          unfold action_index_to_chips
          dsimp only
          rw [if_neg (by norm_num), if_pos rfl, if_neg htc0]
        rw [htot]
    · by_cases htc0 : s.to_call > 0
      · have htot : (action_index_to_chips s 1).2 = s.bets (pIdx s.current_player) +
            min s.to_call (s.stacks (pIdx s.current_player)) := by
          unfold action_index_to_chips
          dsimp only
          rw [if_neg (by norm_num), if_pos rfl, if_pos htc0]
        rw [htot]
        have hmin : min s.to_call (s.stacks (pIdx s.current_player)) ≤
          s.stacks (pIdx s.current_player) := min_le_right _ _
        linarith
      · have htot : (action_index_to_chips s 1).2 = s.bets (pIdx s.current_player) := by
          unfold action_index_to_chips
          dsimp only
          rw [if_neg (by norm_num), if_pos rfl, if_neg htc0]
        rw [htot]
        simpa using hInv.stacksNonneg (pIdx s.current_player)
  · subst h9
    have h : (action_index_to_chips s 9).2 =
        s.bets (pIdx s.current_player) + s.stacks (pIdx s.current_player) := rfl
    rw [h]
    constructor
    · linarith [hInv.stacksNonneg (pIdx s.current_player)]
    · linarith
  · have htot : (action_index_to_chips s a).2 = PREFLOP_RAISE_BB.getD (a - 2) 0 := by
      unfold action_index_to_chips
      dsimp only
      rw [if_neg (by omega), if_neg (by omega), if_neg (by omega), if_pos hpre]
    rw [htot]
    have h1 : s.min_raise_total = max3 s.bets + s.last_raise_amount := rfl
    have h2 := max3_ge s.bets (pIdx s.current_player)
    have h3 := hInv.lraNonneg
    have h4 := hInv.betsNonneg (pIdx s.current_player)
    constructor <;> linarith
  · have htb : s.to_call + s.pot_for_acting * POSTFLOP_POT_MULT.getD (a - 2) 0 ≤
        s.stacks (pIdx s.current_player) := hstk
    have htot : (action_index_to_chips s a).2 =
        s.to_call + s.pot_for_acting * POSTFLOP_POT_MULT.getD (a - 2) 0 := by
      unfold action_index_to_chips
      dsimp only
      rw [if_neg (by omega), if_neg (by omega), if_neg (by omega), if_neg hpost]
      exact min_eq_left htb
    have htc0 : 0 ≤ s.to_call := by
      have h2 := max3_ge s.bets (pIdx s.current_player)
      have h1 : s.to_call = max3 s.bets - s.bets (pIdx s.current_player) := rfl
      linarith
    rw [htot]
    have h6 := hInv.betsNonneg (pIdx s.current_player)
    constructor
    · by_cases hmb : 0 < s.max_bet
      · have h1 := hminr hmb
        have h2 : s.min_raise_total = max3 s.bets + s.last_raise_amount := rfl
        have h3 := max3_ge s.bets (pIdx s.current_player)
        have h4 := hInv.lraNonneg
        have h5 : s.max_bet = max3 s.bets := rfl
        linarith
      · have h5 : s.max_bet = max3 s.bets := rfl
        have h3 := max3_ge s.bets (pIdx s.current_player)
        have hb0 : s.bets (pIdx s.current_player) = 0 := by
          rw [not_lt, h5] at hmb
          linarith
        rw [hb0]
        have h7 : 0 ≤ s.pot_for_acting := by
          have : s.pot_for_acting = s.pot + s.to_call := rfl
          linarith
        have h8 := postflop_mult_nonneg (a - 2)
        positivity
    · linarith

/-- A legal action at an actor state keeps the invariant. -/
theorem inv_apply (s : NLHEState) (a : ℕ) (hInv : Inv s) (hdone : s.done = false)
    (hcp : s.chance_pending = false) (hleg : a ∈ get_legal_actions s) :
    Inv (apply_action s a) := by
  rw [get_legal_actions, if_neg (by rw [hdone, hcp]; simp)] at hleg
  obtain ⟨hcp0, hcp3, hact, hain⟩ := hInv.cpValid hdone hcp
  set s1 : NLHEState := { s with
    undo_stack := s.undo_stack ++
      [UndoRec.act s.stacks s.pot s.bets s.active s.all_in
        s.last_raiser s.last_raise_amount s.current_player],
    action_history := s.action_history ++ [HEntry.act a] } with hs1
  have hInv1 : Inv s1 := inv_transfer s s1 rfl rfl rfl rfl rfl rfl rfl rfl rfl hInv
  have hdone1 : s1.done = false := hdone
  have hcp1 : s1.chance_pending = false := hcp
  have hact1 : s1.active (pIdx s1.current_player) = true := hact
  have hain1 : s1.all_in (pIdx s1.current_player) = false := hain
  unfold apply_action
  rw [← hs1]
  dsimp only
  by_cases h0 : a = 0
  · subst h0
    have htc : 0 < s.to_call := by
      rcases legal_spec s 0 hleg with ⟨-, htc⟩ | h | h | h | h
      · exact htc
      all_goals first | omega | (exfalso; omega) | (rcases h with ⟨h2a, -⟩; omega)
    have hfc : (action_index_to_chips s 0).1 = true := rfl
    rw [hfc, if_pos rfl]
    apply inv_after_mutation
    exact midInv_fold s1 hInv1 hdone1 hcp1 hact1 hain1 htc
  · obtain ⟨hlo, hhi⟩ := legal_chips_bounds s a hInv hdone hcp hleg h0
    have hfc := chips_not_fold s a h0
    rw [hfc]
    rw [if_neg Bool.false_ne_true]
    apply inv_after_mutation
    exact midInv_chips s1 hInv1 hdone1 hcp1 hact1 hain1 _ hlo hhi

/-- The blind-posted chip state of a fresh hand, checked once. -/
theorem inv_deal_nil : Inv (deal_new_hand []) := by
  unfold deal_new_hand initState
  dsimp only
  have hmax : max3 (Function.update (Function.update (fun _ : Player => (0:ℚ)) 1
      SMALL_BLIND_BB) 2 BIG_BLIND_BB) = 1 := by
    have h0 : Function.update (Function.update (fun _ : Player => (0:ℚ)) 1
        SMALL_BLIND_BB) 2 BIG_BLIND_BB 0 = 0 := by
      simp [Function.update_apply]
    have h1 : Function.update (Function.update (fun _ : Player => (0:ℚ)) 1
        SMALL_BLIND_BB) 2 BIG_BLIND_BB 1 = 1/2 := by
      simp [Function.update_apply, SMALL_BLIND_BB]
    have h2 : Function.update (Function.update (fun _ : Player => (0:ℚ)) 1
        SMALL_BLIND_BB) 2 BIG_BLIND_BB 2 = 1 := by
      simp [Function.update_apply, BIG_BLIND_BB]
    rw [max3, h0, h1, h2]
    rw [max_eq_right (by norm_num : (0:ℚ) ≤ 1/2)]
    exact max_eq_right (by norm_num)
  refine ⟨?_, ?_, ?_, ?_, ?_, ?_, ?_, ?_, ?_, ?_, ?_, ?_, ?_⟩
  · intro _
    unfold sumStacks
    dsimp only
    simp [Function.update_apply, SMALL_BLIND_BB, BIG_BLIND_BB, STARTING_STACK_BB]
    norm_num
  · intro h; cases h
  · intro q
    dsimp only
    fin_cases q <;>
      simp [Function.update_apply, SMALL_BLIND_BB, BIG_BLIND_BB, STARTING_STACK_BB] <;>
      norm_num
  · intro _ q
    dsimp only
    fin_cases q <;>
      simp [Function.update_apply, SMALL_BLIND_BB, BIG_BLIND_BB, STARTING_STACK_BB] <;>
      norm_num
  · intro q
    dsimp only
    fin_cases q <;>
      simp [Function.update_apply, SMALL_BLIND_BB, BIG_BLIND_BB] <;> norm_num
  · show (0:ℚ) ≤ BIG_BLIND_BB
    norm_num [BIG_BLIND_BB]
  · intro _ f hf
    exact absurd hf (by simp)
  · intro _ q r _ _ _ _
    dsimp only
    fin_cases q <;> fin_cases r <;>
      simp [Function.update_apply, SMALL_BLIND_BB, BIG_BLIND_BB, STARTING_STACK_BB] <;>
      norm_num
  · intro _
    refine ⟨2, rfl, ?_⟩
    dsimp only
    rw [hmax]
    show BIG_BLIND_BB = 1
    norm_num [BIG_BLIND_BB]
  · intro _ _
    exact ⟨by norm_num, by norm_num, rfl, rfl⟩
  · intro q _
    dsimp only
    fin_cases q <;>
      simp [Function.update_apply, SMALL_BLIND_BB, BIG_BLIND_BB, STARTING_STACK_BB] <;>
      norm_num
  · intro _ h; cases h
  · intro _ hm
    dsimp only at hm
    rw [hmax] at hm
    norm_num at hm

theorem inv_deal (deck : List ℕ) : Inv (deal_new_hand deck) :=
  inv_transfer (deal_new_hand []) (deal_new_hand deck)
    rfl rfl rfl rfl rfl rfl rfl rfl rfl inv_deal_nil

/-- Every state reachable through the play interface satisfies `Inv`. -/
theorem reach_inv (s : NLHEState) (h : ReachPlay s) : Inv s := by
  induction h with
  | deal deck hperm => exact inv_deal deck
  | act t a ht hdone hcp hleg ih => exact inv_apply t a ih hdone hcp hleg
  | chance t ht hcn ih => exact inv_sample_chance t ih hcn


/-- Resolving a hand moves chips between the pot and the stacks only: the
street bets and the raise bookkeeping are untouched. -/
theorem resolve_hand_keep (s : NLHEState) :
    (resolve_hand s).bets = s.bets ∧ (resolve_hand s).last_raiser = s.last_raiser ∧
    (resolve_hand s).last_raise_amount = s.last_raise_amount := by
  unfold resolve_hand resolve_side_pots
  dsimp only
  split_ifs <;> exact ⟨rfl, rfl, rfl⟩

/-- Running out the board and resolving also leaves the street bets and the
raise bookkeeping untouched. -/
theorem run_out_keep : ∀ (m : ℕ) (s : NLHEState), 5 - s.board.length ≤ m →
    (run_out_board_and_resolve s).bets = s.bets ∧
    (run_out_board_and_resolve s).last_raiser = s.last_raiser ∧
    (run_out_board_and_resolve s).last_raise_amount = s.last_raise_amount := by
  intro m
  induction m with
  | zero =>
    intro s hm
    rw [run_out_board_and_resolve, dif_neg (by omega)]
    exact resolve_hand_keep s
  | succ m ih =>
    intro s hm
    rw [run_out_board_and_resolve]
    by_cases h5 : s.board.length < 5
    · rw [dif_pos h5]
      obtain ⟨-, -, hb, -, -, -, hlra, -, -, hlr, -, -, -, -, hlen⟩ :=
        dealN_fields (if s.round_idx = 0 then 3 else 1) s
      have hn : 1 ≤ (if s.round_idx = 0 then 3 else 1) := by split <;> norm_num
      obtain ⟨k1, k2, k3⟩ :=
        ih { dealN s (if s.round_idx = 0 then 3 else 1) with round_idx := s.round_idx + 1 }
          (by simp only [hlen]; omega)
      refine ⟨?_, ?_, ?_⟩
      · rw [k1]; exact hb
      · rw [k2]; exact hlr
      · rw [k3]; exact hlra
    · rw [dif_neg h5]
      exact resolve_hand_keep s

/-- Advancing the turn pointer (including its resolve and run-out branches)
leaves the street bets and the raise bookkeeping untouched. -/
theorem advance_keep (s : NLHEState) :
    (advance_to_next_player s).bets = s.bets ∧
    (advance_to_next_player s).last_raiser = s.last_raiser ∧
    (advance_to_next_player s).last_raise_amount = s.last_raise_amount := by
  unfold advance_to_next_player
  split_ifs
  · exact run_out_keep (5 - s.board.length) s le_rfl
  · exact resolve_hand_keep s
  · exact ⟨rfl, rfl, rfl⟩
  · exact ⟨rfl, rfl, rfl⟩

/-- What `apply_action` does to the street bet and the raise bookkeeping for a
non-fold action: the actor's street bet becomes the requested total, and when
that total strictly exceeds every bet on the table the raise marker and the
raise amount are rewritten. -/
theorem apply_action_raise_fields (s : NLHEState) (a : ℕ) (hne : a ≠ 0) :
    (apply_action s a).bets (pIdx s.current_player) = (action_index_to_chips s a).2 ∧
    (max3 s.bets < (action_index_to_chips s a).2 →
      (apply_action s a).last_raiser = (((pIdx s.current_player : Fin 3) : ℕ) : ℤ) ∧
      (apply_action s a).last_raise_amount =
        (action_index_to_chips s a).2 - s.bets (pIdx s.current_player)) := by
  have hfc := chips_not_fold s a hne
  unfold apply_action
  dsimp only
  rw [hfc, if_neg Bool.false_ne_true]
  set p := pIdx s.current_player with hp
  set total := (action_index_to_chips s a).2 with htotal
  set s1 : NLHEState := { s with
    undo_stack := s.undo_stack ++
      [UndoRec.act s.stacks s.pot s.bets s.active s.all_in
        s.last_raiser s.last_raise_amount s.current_player],
    action_history := s.action_history ++ [HEntry.act a] } with hs1
  obtain ⟨f1, f2, f3, f4, f5, f6, f7, f8, f9, f10⟩ := apply_chips_fields s1 p total
  have hbets1 : s1.bets = s.bets := rfl
  have hb2 : (apply_chips s1 p total).bets p = total := by
    rw [f2, hbets1, Function.update_same]
  set s2 := apply_chips s1 p total with hs2
  by_cases hac : activeCount s2 = 1
  · rw [if_pos hac]
    obtain ⟨k1, k2, k3⟩ := resolve_hand_keep s2
    refine ⟨by rw [k1]; exact hb2, ?_⟩
    intro hgt
    have hcond : total - s1.bets p > 0 ∧ total > maxOthers s1.bets p := by
      rw [hbets1]
      have h1 := max3_ge s.bets p
      have h2 := maxOthers_le_max3 s.bets p
      exact ⟨by linarith, by linarith⟩
    rw [if_pos hcond] at f9 f10
    exact ⟨by rw [k2, f10], by rw [k3, f9, hbets1]⟩
  · rw [if_neg hac]
    obtain ⟨k1, k2, k3⟩ := advance_keep s2
    refine ⟨by rw [k1]; exact hb2, ?_⟩
    intro hgt
    have hcond : total - s1.bets p > 0 ∧ total > maxOthers s1.bets p := by
      rw [hbets1]
      have h1 := max3_ge s.bets p
      have h2 := maxOthers_le_max3 s.bets p
      exact ⟨by linarith, by linarith⟩
    rw [if_pos hcond] at f9 f10
    exact ⟨by rw [k2, f10], by rw [k3, f9, hbets1]⟩



/-! ## The claims

Concrete traces are evaluated by the kernel; the rational arithmetic of the
engine is `@[irreducible]` upstream purely as an elaboration hint, so we
restore the definitional transparency the kernel uses anyway. -/

set_option allowUnsafeReducibility true

set_option maxHeartbeats 4000000

set_option maxRecDepth 100000

attribute [local semireducible] Rat.add Rat.mul Rat.sub Rat.div Rat.inv

/-- The identity permutation of the 52-card deck. -/
def deck0 : List ℕ := List.range 52

/-- Deal, then seats 0 and 1 fold: a terminal state won by the big blind. -/
def stateFoldFold : NLHEState := apply_action (apply_action (deal_new_hand deck0) 0) 0

/-- Deal, then seats 0 and 1 call: seat 2 (the big blind) is left to act. -/
def stateCC : NLHEState := apply_action (apply_action (deal_new_hand deck0) 1) 1

/-- Deal, call, call, check: the preflop round is complete and the state is a
chance node awaiting the flop. -/
def stateCCK : NLHEState := apply_action stateCC 1

/-- The legal-action list before its final `sorted(...)`; ordering aside it
has the same members as `get_legal_action_indices`. -/
def legalPre (s : NLHEState) : List ℕ :=
  let p := pIdx s.current_player
  if ¬ s.active p ∨ s.all_in p then []
  else
    let to_call := s.to_call
    let stack := s.stacks p
    let is_preflop := s.round_idx = 0
    let base : List ℕ :=
      if to_call > 0 then if stack ≥ to_call then [0, 1] else [0] else [1]
    let chips_after_call := stack - to_call
    if chips_after_call ≤ 0 then
      (if stack > 0 ∧ 9 ∉ base then base ++ [9] else base)
    else if is_preflop then
      let min_raise_total := s.min_raise_total
      let r := preflopRaiseLoop min_raise_total stack
        (PREFLOP_RAISE_BB.enum) []
      let legal := base ++ r.1
      let legal :=
        if stack > 0 ∧ (stack ≥ min_raise_total ∨ to_call > 0) then
          if stack ∉ r.2 then legal ++ [9] else legal
        else legal
      legal
    else
      let pot := s.pot_for_acting
      let max_bet := s.max_bet
      let min_raise_total := if max_bet > 0 then s.min_raise_total else 0
      let r := postflopRaiseLoop pot to_call max_bet min_raise_total stack
        (POSTFLOP_POT_MULT.enum) []
      let legal := base ++ r.1
      let legal :=
        if stack > 0 ∧ (stack ≥ min_raise_total ∨ to_call > 0) then legal ++ [9]
        else legal
      legal

theorem mem_legal_iff (s : NLHEState) (x : ℕ) :
    x ∈ get_legal_action_indices s ↔ x ∈ legalPre s := by
  unfold get_legal_action_indices legalPre
  dsimp only
  split_ifs <;>
    first
      | rfl
      | exact Iff.rfl
      | exact (List.mergeSort_perm _ _).mem_iff

theorem mem_legal_actions_iff (s : NLHEState) (x : ℕ) :
    x ∈ get_legal_actions s ↔
      ¬ (s.done = true ∨ s.chance_pending = true) ∧ x ∈ legalPre s := by
  rw [get_legal_actions]
  split_ifs with h
  · simp only [List.not_mem_nil, false_iff]
    intro hc
    exact hc.1 (by simpa using h)
  · simp only [mem_legal_iff]
    refine ⟨fun hx => ⟨by simpa using h, hx⟩, fun hx => hx.2⟩

theorem memLeg {s : NLHEState} {x : ℕ}
    (h : ¬ (s.done = true ∨ s.chance_pending = true) ∧ x ∈ legalPre s) :
    x ∈ get_legal_actions s :=
  (mem_legal_actions_iff s x).mpr h

/-- C1: refuted (code bug).  `undo_action` is not an exact inverse of
`apply_action` on reachable states: after deal/call/call the check that closes
the preflop round sets `chance_pending`, and the immediately following
`undo_action` restores the eight snapshot fields but not `chance_pending`, so
the state it returns differs from the state before the apply. -/
theorem C1_undo_not_exact_inverse :
    ReachPlay stateCC ∧ stateCC.done = false ∧ stateCC.chance_pending = false ∧
    1 ∈ get_legal_actions stateCC ∧
    (undo_action (apply_action stateCC 1)).chance_pending = true ∧
    undo_action (apply_action stateCC 1) ≠ stateCC := by
  refine ⟨?_, by decide, by decide, memLeg (by decide), by decide,
    fun h => absurd (congrArg NLHEState.chance_pending h) (by decide)⟩
  exact ReachPlay.act _ 1
    (ReachPlay.act _ 1 (ReachPlay.deal deck0 (List.Perm.refl _))
      (by decide) (by decide) (memLeg (by decide)))
    (by decide) (by decide) (memLeg (by decide))

/-- C2: refuted (code bug).  The traversal does not restore the engine state
across a chance node: at the chance node reached by deal/call/call/check the
trainer samples the flop and recurses with no matching undo, so even though
the recursion's own apply/undo pair is an exact inverse, the state when the
chance branch returns is the sampled state, which differs from the entry
state; and the enclosing caller's matching `undo_action` then pops the `DEAL`
record, landing on a chance-pending state instead of the actor state the
caller applied its action to. -/
theorem C2_traversal_does_not_restore_state :
    ReachPlay stateCCK ∧ is_chance_node stateCCK = true ∧
    apply_action stateCC 1 = stateCCK ∧
    1 ∈ get_legal_actions (sample_chance stateCCK) ∧
    undo_action (apply_action (sample_chance stateCCK) 1) = sample_chance stateCCK ∧
    sample_chance stateCCK ≠ stateCCK ∧
    (undo_action (sample_chance stateCCK)).chance_pending = true ∧
    stateCC.chance_pending = false := by
  refine ⟨?_, by decide, rfl, memLeg (by decide), rfl,
    fun h => absurd (congrArg NLHEState.chance_pending h) (by decide),
    by decide, by decide⟩
  exact ReachPlay.act _ 1
    (ReachPlay.act _ 1
      (ReachPlay.act _ 1 (ReachPlay.deal deck0 (List.Perm.refl _))
        (by decide) (by decide) (memLeg (by decide)))
      (by decide) (by decide) (memLeg (by decide)))
    (by decide) (by decide) (memLeg (by decide))

/-- C3 counterexample: at the terminal state reached by deal/fold/fold the pot
has been paid back into the winner's stack but the `pot` field is not zeroed,
so `sum(stacks) + pot` is `61.5`, not `3 * STARTING_STACK = 60`. -/
theorem C3_counterexample :
    ReachPlay stateFoldFold ∧ stateFoldFold.done = true ∧
    sumStacks stateFoldFold + stateFoldFold.pot = 123 / 2 ∧
    sumStacks stateFoldFold + stateFoldFold.pot ≠ 3 * STARTING_STACK_BB := by
  refine ⟨?_, by decide, by decide, by decide⟩
  exact ReachPlay.act _ 0
    (ReachPlay.act _ 0 (ReachPlay.deal deck0 (List.Perm.refl _))
      (by decide) (by decide) (memLeg (by decide)))
    (by decide) (by decide) (memLeg (by decide))

/-- C3 (amended): chip conservation on reachable states.  While the hand is
running, `sum(stacks) + pot = 3 * STARTING_STACK`; once `done` is set the pot
has been distributed into the stacks, so `sum(stacks)` alone equals
`3 * STARTING_STACK` and the stale `pot` field is no longer part of the
identity. -/
theorem C3_conservation_amended (s : NLHEState) (hre : ReachPlay s) :
    (s.done = false → sumStacks s + s.pot = 3 * STARTING_STACK_BB) ∧
    (s.done = true → sumStacks s = 3 * STARTING_STACK_BB) :=
  ⟨(reach_inv s hre).conserve, (reach_inv s hre).doneSum⟩

theorem C3_conservation_amended_witness :
    (deal_new_hand deck0).done = false ∧
    sumStacks (deal_new_hand deck0) + (deal_new_hand deck0).pot =
      3 * STARTING_STACK_BB := by
  have h := C3_conservation_amended (deal_new_hand deck0)
    (ReachPlay.deal deck0 (List.Perm.refl _))
  exact ⟨by decide, h.1 (by decide)⟩

/-- C4 counterexample: on the very first raise of a fresh hand (index 2,
raise-to-2BB) the engine stores `last_raise_amount = 2`, the chips the actor
added over his own previous street bet, not `new_total - max(bets) = 2 - 1 = 1`
as the claim states. -/
theorem C4_counterexample :
    ReachPlay (deal_new_hand deck0) ∧ (deal_new_hand deck0).done = false ∧
    (deal_new_hand deck0).chance_pending = false ∧
    2 ∈ get_legal_actions (deal_new_hand deck0) ∧
    (action_index_to_chips (deal_new_hand deck0) 2).2 = 2 ∧
    max3 (deal_new_hand deck0).bets = 1 ∧
    (apply_action (deal_new_hand deck0) 2).last_raiser = 0 ∧
    (apply_action (deal_new_hand deck0) 2).last_raise_amount = 2 ∧
    (apply_action (deal_new_hand deck0) 2).last_raise_amount ≠
      (action_index_to_chips (deal_new_hand deck0) 2).2 -
        max3 (deal_new_hand deck0).bets := by
  refine ⟨ReachPlay.deal deck0 (List.Perm.refl _), by decide, by decide,
    memLeg (by decide), by decide, by decide, by decide, by decide, by decide⟩

/-- C4 (amended): on a reachable actor state, a non-fold action whose new
street total strictly exceeds the previous `max(bets)` sets `last_raiser` to
the actor and `last_raise_amount` to the total minus the **actor's own**
previous street bet (the chips added, not the total minus the previous
maximum); and every legal non-all-in raise (indices 2..8) produces
`bets[actor] = max(bets) + r` with `r ≥ last_raise_amount`. -/
theorem C4_raise_update_amended (s : NLHEState) (hre : ReachPlay s)
    (hdone : s.done = false) (hcp : s.chance_pending = false) (a : ℕ)
    (hleg : a ∈ get_legal_actions s) :
    (a ≠ 0 → max3 s.bets < (action_index_to_chips s a).2 →
      (apply_action s a).last_raiser = (((pIdx s.current_player : Fin 3) : ℕ) : ℤ) ∧
      (apply_action s a).last_raise_amount =
        (action_index_to_chips s a).2 - s.bets (pIdx s.current_player)) ∧
    (2 ≤ a → a ≤ 8 →
      (apply_action s a).bets (pIdx s.current_player) =
        max3 s.bets + ((action_index_to_chips s a).2 - max3 s.bets) ∧
      s.last_raise_amount ≤ (action_index_to_chips s a).2 - max3 s.bets) := by
  have hInv := reach_inv s hre
  have hleg' : a ∈ get_legal_action_indices s := by
    rw [get_legal_actions, if_neg (by rw [hdone, hcp]; simp)] at hleg
    exact hleg
  constructor
  · intro hne hgt
    exact (apply_action_raise_fields s a hne).2 hgt
  · intro h2 h8
    have hne : a ≠ 0 := by omega
    have hb := (apply_action_raise_fields s a hne).1
    refine ⟨by rw [hb]; ring, ?_⟩
    rcases legal_spec s a hleg' with ⟨h0, -⟩ | h1 | h9 | ⟨-, -, hpre, hminr, hstk⟩ |
      ⟨-, -, hpost, hminr, hstk⟩
    · omega
    · omega
    · omega
    · have htot : (action_index_to_chips s a).2 = PREFLOP_RAISE_BB.getD (a - 2) 0 := by
        unfold action_index_to_chips
        dsimp only
        rw [if_neg (by omega), if_neg (by omega), if_neg (by omega), if_pos hpre]
      have hm : s.min_raise_total = max3 s.bets + s.last_raise_amount := rfl
      rw [htot]
      linarith
    · have htot : (action_index_to_chips s a).2 =
          s.to_call + s.pot_for_acting * POSTFLOP_POT_MULT.getD (a - 2) 0 := by
        unfold action_index_to_chips
        dsimp only
        rw [if_neg (by omega), if_neg (by omega), if_neg (by omega), if_neg hpost]
        exact min_eq_left hstk
      by_cases hmb : 0 < s.max_bet
      · have h1 := hminr hmb
        have hm : s.min_raise_total = max3 s.bets + s.last_raise_amount := rfl
        rw [htot]
        linarith
      · have hmb3 : s.max_bet = max3 s.bets := rfl
        have hmax0 : max3 s.bets = 0 := by
          have ha1 := max3_ge s.bets 0
          have ha2 := hInv.betsNonneg 0
          rw [not_lt, hmb3] at hmb
          linarith
        have hlra := hInv.maxZeroLra hdone hmax0
        have hbnds := legal_chips_bounds s a hInv hdone hcp hleg' hne
        have hbp := hInv.betsNonneg (pIdx s.current_player)
        rw [hlra, hmax0]
        linarith [hbnds.1]

theorem C4_raise_update_amended_witness :
    ((apply_action (deal_new_hand deck0) 2).last_raiser =
      (((pIdx (deal_new_hand deck0).current_player : Fin 3) : ℕ) : ℤ) ∧
     (apply_action (deal_new_hand deck0) 2).last_raise_amount =
      (action_index_to_chips (deal_new_hand deck0) 2).2 -
        (deal_new_hand deck0).bets (pIdx (deal_new_hand deck0).current_player)) ∧
    ((apply_action (deal_new_hand deck0) 2).bets
        (pIdx (deal_new_hand deck0).current_player) =
      max3 (deal_new_hand deck0).bets +
        ((action_index_to_chips (deal_new_hand deck0) 2).2 -
          max3 (deal_new_hand deck0).bets) ∧
     (deal_new_hand deck0).last_raise_amount ≤
      (action_index_to_chips (deal_new_hand deck0) 2).2 -
        max3 (deal_new_hand deck0).bets) := by
  have h := C4_raise_update_amended (deal_new_hand deck0)
    (ReachPlay.deal deck0 (List.Perm.refl _)) (by decide) (by decide) 2
    (memLeg (by decide))
  exact ⟨h.1 (by decide) (by decide), h.2 (by decide) (by decide)⟩

/-- C5: confirmed.  At every reachable terminal state the payoff of each
player is that player's stack minus the starting stack, and the three payoffs
sum to zero (the pot, folded chips, and every layered side pot included, by
the conservation invariant `sum(stacks) = 3 * STARTING_STACK` once `done`). -/
theorem C5_payoffs_zero_sum (s : NLHEState) (hre : ReachPlay s)
    (hdone : s.done = true) :
    (∀ p : Player, get_payoffs s p = s.stacks p - STARTING_STACK_BB) ∧
    get_payoffs s 0 + get_payoffs s 1 + get_payoffs s 2 = 0 := by
  refine ⟨fun p => rfl, ?_⟩
  have hsum := (reach_inv s hre).doneSum hdone
  rw [sumStacks] at hsum
  have h0 : get_payoffs s 0 = s.stacks 0 - STARTING_STACK_BB := rfl
  have h1 : get_payoffs s 1 = s.stacks 1 - STARTING_STACK_BB := rfl
  have h2 : get_payoffs s 2 = s.stacks 2 - STARTING_STACK_BB := rfl
  have hS : STARTING_STACK_BB = 20 := rfl
  rw [h0, h1, h2, hS]
  rw [hS] at hsum
  linarith

theorem C5_payoffs_zero_sum_witness :
    stateFoldFold.done = true ∧
    get_payoffs stateFoldFold 2 = stateFoldFold.stacks 2 - STARTING_STACK_BB ∧
    get_payoffs stateFoldFold 0 + get_payoffs stateFoldFold 1 +
      get_payoffs stateFoldFold 2 = 0 := by
  have hre : ReachPlay stateFoldFold :=
    ReachPlay.act _ 0
      (ReachPlay.act _ 0 (ReachPlay.deal deck0 (List.Perm.refl _))
        (by decide) (by decide) (memLeg (by decide)))
      (by decide) (by decide) (memLeg (by decide))
  have h := C5_payoffs_zero_sum stateFoldFold hre (by decide)
  exact ⟨by decide, h.1 2, h.2⟩

/-- A bucket-table record with no tables loaded (the pure fallback regime). -/
def tablesNone : BucketTables := ⟨none, none, none, none⟩

/-- A second deck sharing seat 0's hole cards with `deck0` but dealing
different cards everywhere else. -/
def deckB : List ℕ := [0, 1] ++ ((List.range 52).drop 2).reverse

/-- C7: confirmed.  The info-set key of a player is a function of that
player's hole cards, the board, the round index, and the public action
history only: any two states agreeing on those four observables produce the
same key, whatever the other players hold and whatever the deck order is. -/
theorem C7_info_key_observable (tables : BucketTables) (shuffles : ℕ → List ℕ)
    (pos : ℕ) (s t : NLHEState) (player : Player)
    (hh : s.hole_cards player = t.hole_cards player) (hb : s.board = t.board)
    (hr : s.round_idx = t.round_idx) (ha : s.action_history = t.action_history) :
    get_info_key tables shuffles pos s player =
      get_info_key tables shuffles pos t player := by
  simp only [get_info_key]
  rw [hh, hb, hr, ha]

theorem C7_info_key_observable_witness :
    (deal_new_hand deck0).hole_cards 1 ≠ (deal_new_hand deckB).hole_cards 1 ∧
    get_info_key tablesNone (fun _ => []) 0 (deal_new_hand deck0) 0 =
      get_info_key tablesNone (fun _ => []) 0 (deal_new_hand deckB) 0 := by
  refine ⟨by decide, ?_⟩
  exact C7_info_key_observable tablesNone (fun _ => []) 0 _ _ 0
    (by decide) (by decide) (by decide) (by decide)

/-- C10: confirmed.  `undo_action` on a state with an empty undo stack is the
identity, and the module-level `undo_action()` with no current state returns
`None` without touching anything. -/
theorem C10_undo_empty_noop :
    (∀ s : NLHEState, s.undo_stack = [] → undo_action s = s) ∧
    undo_action_global none = none := by
  refine ⟨?_, rfl⟩
  intro s h
  unfold undo_action
  rw [h]
  rfl

theorem C10_undo_empty_noop_witness :
    undo_action initState = initState ∧ undo_action_global none = none :=
  ⟨C10_undo_empty_noop.1 initState rfl, C10_undo_empty_noop.2⟩


theorem list_sum_map_div (l : List ℚ) (c : ℚ) :
    (l.map (fun x => x / c)).sum = l.sum / c := by
  induction l with
  | nil => simp
  | cons a t ih => simp [ih, add_div]

/-- The padded per-key regret row that `CFRTrainer.get_strategy` reads
(`regret_sum.get(info_key, zeros)` resized to `NUM_ACTIONS`). -/
def stratRegretsFull {K : Type} (regret_sum : K → Option (List ℚ)) (k : K) :
    List ℚ :=
  let r := (regret_sum k).getD (npZeros NUM_ACTIONS)
  if r.length < NUM_ACTIONS then npResize r NUM_ACTIONS else r

/-- The positive parts of the legal actions' regrets, in legal-action order. -/
def stratPositive {K : Type} (regret_sum : K → Option (List ℚ)) (k : K)
    (A : List ℕ) : List ℚ :=
  A.map (fun a => max ((stratRegretsFull regret_sum k).getD a 0) 0)

/-- C9: confirmed.  For every key (seen or not) and non-empty legal-action
list, `get_strategy` returns a proper probability distribution over the legal
actions: one entry per legal action, all nonnegative, summing to 1, equal to
the positive-part regrets normalized when their sum is positive and uniform
`1/|A|` otherwise (in particular uniform for a key never written). -/
theorem C9_get_strategy_distribution {K : Type} (regret_sum : K → Option (List ℚ))
    (k : K) (A : List ℕ) (hA : A ≠ []) :
    (trainer_get_strategy regret_sum k A).length = A.length ∧
    (∀ x ∈ trainer_get_strategy regret_sum k A, 0 ≤ x) ∧
    (trainer_get_strategy regret_sum k A).sum = 1 ∧
    (0 < (stratPositive regret_sum k A).sum →
      trainer_get_strategy regret_sum k A =
        (stratPositive regret_sum k A).map
          (fun x => x / (stratPositive regret_sum k A).sum)) ∧
    (¬ 0 < (stratPositive regret_sum k A).sum →
      trainer_get_strategy regret_sum k A =
        List.replicate A.length ((1 : ℚ) / A.length)) := by
  have hn : 0 < A.length := List.length_pos.mpr hA
  have hnQ : (0 : ℚ) < A.length := by exact_mod_cast hn
  have hT : trainer_get_strategy regret_sum k A =
      regret_matching (A.map fun a => (stratRegretsFull regret_sum k).getD a 0)
        A.length := rfl
  have ht : (A.map fun a => (stratRegretsFull regret_sum k).getD a 0).take A.length
      = A.map fun a => (stratRegretsFull regret_sum k).getD a 0 := by
    rw [show A.length =
        (A.map fun a => (stratRegretsFull regret_sum k).getD a 0).length from
      (List.length_map _ _).symm]
    exact List.take_length _
  have hRM : regret_matching
      (A.map fun a => (stratRegretsFull regret_sum k).getD a 0) A.length =
      (if 0 < (stratPositive regret_sum k A).sum then
        (stratPositive regret_sum k A).map
          (fun x => x / (stratPositive regret_sum k A).sum)
      else List.replicate A.length ((1 : ℚ) / A.length)) := by
    unfold regret_matching
    rw [if_neg (by omega)]
    dsimp only
    conv_lhs =>
      rw [if_pos (show (List.map (fun a => (stratRegretsFull regret_sum k).getD a 0)
            A).length ≥ A.length by simp),
        if_neg (show ¬ (List.map (fun a => (stratRegretsFull regret_sum k).getD a 0)
            A).length < A.length by simp),
        ht, List.map_map]
    rfl
  rw [hT, hRM]
  by_cases hz : 0 < (stratPositive regret_sum k A).sum
  · rw [if_pos hz]
    refine ⟨?_, ?_, ?_, fun _ => rfl, fun hc => absurd hz hc⟩
    · rw [List.length_map, stratPositive, List.length_map]
    · intro x hx
      rcases List.mem_map.mp hx with ⟨y, hy, rfl⟩
      rcases List.mem_map.mp hy with ⟨a, ha, rfl⟩
      exact div_nonneg (le_max_right _ _) (le_of_lt hz)
    · rw [list_sum_map_div]
      exact div_self (ne_of_gt hz)
  · rw [if_neg hz]
    refine ⟨List.length_replicate _ _, ?_, ?_, fun hc => absurd hc hz, fun _ => rfl⟩
    · intro x hx
      rw [List.eq_of_mem_replicate hx]
      positivity
    · rw [List.sum_replicate, nsmul_eq_mul]
      field_simp

theorem C9_get_strategy_distribution_witness :
    ([3, 7] : List ℕ) ≠ [] ∧
    (trainer_get_strategy (fun _ : ℕ => (none : Option (List ℚ))) 0 [3, 7]).sum = 1 ∧
    trainer_get_strategy (fun _ : ℕ => (none : Option (List ℚ))) 0 [3, 7] =
      [1 / 2, 1 / 2] := by
  have h := C9_get_strategy_distribution (fun _ : ℕ => (none : Option (List ℚ)))
    0 [3, 7] (by decide)
  refine ⟨by decide, h.2.2.1, ?_⟩
  rw [h.2.2.2.2 (by decide)]
  decide


theorem rowAddAt_length (row : List ℚ) (a : ℕ) (x : ℚ) :
    (rowAddAt row a x).length = row.length := by
  simp [rowAddAt]

theorem rowAddAt_getD_self (row : List ℚ) (a : ℕ) (x : ℚ) (h : a < row.length) :
    (rowAddAt row a x).getD a 0 = row.getD a 0 + x := by
  simp [rowAddAt, List.getD_eq_getElem?_getD, List.getElem?_set, h]

theorem rowAddAt_getD_other (row : List ℚ) (a b : ℕ) (x : ℚ) (hne : a ≠ b) :
    (rowAddAt row a x).getD b 0 = row.getD b 0 := by
  simp [rowAddAt, List.getD_eq_getElem?_getD, List.getElem?_set, hne]

theorem rowAddAll_length (l : List (ℕ × ℚ)) : ∀ (row : List ℚ),
    (rowAddAll row l).length = row.length := by
  induction l with
  | nil => intro row; rfl
  | cons p rest ih =>
    intro row
    obtain ⟨a, x⟩ := p
    simp only [rowAddAll]
    rw [ih, rowAddAt_length]

theorem rowAddAll_getD_notmem (l : List (ℕ × ℚ)) : ∀ (row : List ℚ) (b : ℕ),
    (∀ p ∈ l, p.1 ≠ b) → (rowAddAll row l).getD b 0 = row.getD b 0 := by
  induction l with
  | nil => intro row b _; rfl
  | cons p rest ih =>
    intro row b h
    obtain ⟨a, x⟩ := p
    simp only [rowAddAll]
    rw [ih _ _ (fun q hq => h q (List.mem_cons_of_mem _ hq))]
    exact rowAddAt_getD_other row a b x (h (a, x) (List.mem_cons_self _ _))

theorem rowAddAll_getD (l : List (ℕ × ℚ)) : ∀ (row : List ℚ) (a : ℕ) (x : ℚ),
    (a, x) ∈ l → (l.map Prod.fst).Nodup → a < row.length →
    (rowAddAll row l).getD a 0 = row.getD a 0 + x := by
  induction l with
  | nil =>
    intro row a x h
    simp at h
  | cons p rest ih =>
    intro row a x hmem hnd hlen
    obtain ⟨b, y⟩ := p
    simp only [List.map_cons, List.nodup_cons] at hnd
    obtain ⟨hbn, hnd2⟩ := hnd
    rcases List.mem_cons.mp hmem with heq | htail
    · injection heq with h1 h2
      subst h1
      subst h2
      simp only [rowAddAll]
      rw [rowAddAll_getD_notmem rest _ _
        (fun q hq hqa => hbn (by rw [← hqa]; exact List.mem_map_of_mem Prod.fst hq))]
      exact rowAddAt_getD_self row a x hlen
    · have hba : b ≠ a := fun h => hbn (h ▸ List.mem_map_of_mem Prod.fst htail)
      simp only [rowAddAll]
      rw [ih _ _ _ htail hnd2 (by rw [rowAddAt_length]; exact hlen)]
      rw [rowAddAt_getD_other row b a y hba]

/-- C8: confirmed.  At a traverser node past the warm-up, an action below the
prune threshold that the draw skips contributes value 0 (so its term of the
`strategy @ values` expectation is zero), and its regret-sum entry still
receives the full `(0 - ev) * t` Linear-CFR update. -/
theorem C8_pruned_action_regret_update {K : Type}
    (regret_sum strategy_sum : K → Option (List ℚ)) (k : K)
    (actions : List ℕ) (draw : ℕ → Bool) (childValue : ℕ → ℚ)
    (t : ℕ) (row : List ℚ) (i a : ℕ)
    (ht : PRUNE_WARM_UP_ITERATIONS < t)
    (hrow : regret_sum k = some row)
    (ha : a < row.length)
    (hthr : row.getD a 0 < PRUNE_THRESHOLD)
    (hdraw : draw a = true)
    (hi : actions.getD i 0 = a) (hilen : i < actions.length)
    (hnd : actions.Nodup) :
    (cfr_traverser_node (some PRUNE_THRESHOLD) PRUNE_WARM_UP_ITERATIONS true t
        regret_sum strategy_sum k actions draw childValue).values.getD i 0 = 0 ∧
    (cfr_traverser_node (some PRUNE_THRESHOLD) PRUNE_WARM_UP_ITERATIONS true t
        regret_sum strategy_sum k actions draw childValue).regret_row.getD a 0 =
      row.getD a 0 +
        (0 - (cfr_traverser_node (some PRUNE_THRESHOLD) PRUNE_WARM_UP_ITERATIONS
          true t regret_sum strategy_sum k actions draw childValue).ev) * (t : ℚ) := by
  have hprune : should_prune (some PRUNE_THRESHOLD) t PRUNE_WARM_UP_ITERATIONS
      regret_sum k a (draw a) = true := by
    unfold should_prune
    dsimp only
    rw [if_neg (by omega), hrow]
    simp only [Option.getD_some]
    rw [if_pos ⟨ha, hthr⟩]
    exact hdraw
  set f : ℕ → ℚ := fun x =>
    if should_prune (some PRUNE_THRESHOLD) t PRUNE_WARM_UP_ITERATIONS
        regret_sum k x (draw x) then (0 : ℚ)
    else childValue x with hf
  have h1 : actions[i]? = some actions[i] := List.getElem?_eq_getElem hilen
  have h2 : actions[i] = a := by
    rw [← hi, List.getD_eq_getElem?_getD, h1]
    rfl
  have hav : actions[i]? = some a := by rw [h1, h2]
  have hfa : f a = 0 := by
    rw [hf]
    dsimp only
    rw [hprune]
    rfl
  have hvals : (cfr_traverser_node (some PRUNE_THRESHOLD) PRUNE_WARM_UP_ITERATIONS
      true t regret_sum strategy_sum k actions draw childValue).values =
      actions.map f := rfl
  have hv : (actions.map f).getD i 0 = f a := by
    rw [List.getD_eq_getElem?_getD, List.getElem?_map, hav]
    rfl
  refine ⟨by rw [hvals, hv, hfa], ?_⟩
  set E : ℚ := (cfr_traverser_node (some PRUNE_THRESHOLD) PRUNE_WARM_UP_ITERATIONS
    true t regret_sum strategy_sum k actions draw childValue).ev with hE
  set pairs : List (ℕ × ℚ) := actions.enum.map
    (fun ia => (ia.2, ((actions.map f).map (fun v => v - E)).getD ia.1 0 * (t : ℚ)))
    with hpairs
  have hreg : (cfr_traverser_node (some PRUNE_THRESHOLD) PRUNE_WARM_UP_ITERATIONS
      true t regret_sum strategy_sum k actions draw childValue).regret_row =
      rowAddAll ((regret_sum k).getD (npZeros NUM_ACTIONS)) pairs := rfl
  rw [hrow] at hreg
  simp only [Option.getD_some] at hreg
  have hmem : (a, ((actions.map f).map (fun v => v - E)).getD i 0 * (t : ℚ)) ∈ pairs := by
    rw [hpairs]
    have he : (i, a) ∈ actions.enum := by
      rw [List.mem_enum_iff_getElem?]
      exact hav
    exact List.mem_map_of_mem _ he
  have hfst : pairs.map Prod.fst = actions := by
    rw [hpairs, List.map_map]
    exact List.enum_map_snd actions
  have hnd2 : (pairs.map Prod.fst).Nodup := by rw [hfst]; exact hnd
  have hval : ((actions.map f).map (fun v => v - E)).getD i 0 = 0 - E := by
    rw [List.getD_eq_getElem?_getD, List.getElem?_map, List.getElem?_map, hav]
    show f a - E = 0 - E
    rw [hfa]
  rw [hreg, rowAddAll_getD pairs row a _ hmem hnd2 ha, hval]

/-- The concrete regret row of the C8 witness: action 2 sits at regret
`-400`, below the `-300` prune threshold. -/
def c8row : List ℚ := [0, 0, -400, 0, 0, 0, 0, 0, 0, 0]

/-- The C8 witness node: iteration 101, actions 1, 2, 9, every draw skipping,
children worth 5. -/
def c8node : TraverserNodeResult :=
  cfr_traverser_node (some PRUNE_THRESHOLD) PRUNE_WARM_UP_ITERATIONS true 101
    (fun _ : ℕ => some c8row) (fun _ : ℕ => none) 0 [1, 2, 9]
    (fun _ => true) (fun _ => 5)

theorem C8_pruned_action_regret_update_witness :
    c8node.values.getD 1 0 = 0 ∧
    c8node.regret_row.getD 2 0 = c8row.getD 2 0 + (0 - c8node.ev) * (101 : ℚ) := by
  have h := C8_pruned_action_regret_update (fun _ : ℕ => some c8row)
    (fun _ : ℕ => none) 0 [1, 2, 9] (fun _ => true) (fun _ => 5) 101 c8row 1 2
    (by decide) rfl (by decide) (by decide) rfl (by decide) (by decide) (by decide)
  exact h


/-- The value one rollout of `_estimate_equity` adds to `wins` when the
shuffled remainder of the deck comes out as `rest`. -/
def rolloutScore (hole_cards board : List ℕ) (board_len : ℕ) (rest : List ℕ) : ℚ :=
  let opp := rest.take 2
  let runout :=
    if board_len = 3 then (rest.drop 2).take 5
    else if board_len = 4 then (rest.drop 2).take 4
    else []
  let full_board := board.take board_len ++ runout
  if full_board.length < 5 then 0
  else
    let my_hand := evaluate_hand (hole_cards ++ full_board)
    let opp_hand := evaluate_hand (opp ++ full_board)
    if pyListLt opp_hand my_hand then 1
    else if my_hand = opp_hand then 1/2 else 0

theorem foldl_range_eq_const (F : ℚ → ℕ → ℚ) (c : ℚ) (n : ℕ)
    (h : ∀ w k, k < n → F w k = w + c) :
    (List.range n).foldl F 0 = n * c := by
  have gen : ∀ m, m ≤ n → ∀ w : ℚ, (List.range m).foldl F w = w + m * c := by
    intro m
    induction m with
    | zero => intro _ w; simp
    | succ p ih =>
      intro hm w
      rw [List.range_succ, List.foldl_append, ih (by omega) w]
      simp only [List.foldl_cons, List.foldl_nil]
      rw [h _ p (by omega)]
      push_cast
      ring
  simpa using gen n le_rfl 0

/-- When the shuffle stream is constant over the rollout window, the equity
estimate is the single-rollout score. -/
theorem estimate_equity_const (shuffles : ℕ → List ℕ) (pos : ℕ)
    (hole_cards board : List ℕ) (board_len n : ℕ) (L : List ℕ)
    (hc : ∀ k, k < n → shuffles (pos + k) = L) :
    estimate_equity shuffles pos hole_cards board board_len n =
      ((n : ℚ) * rolloutScore hole_cards board board_len L / n, pos + n) := by
  unfold estimate_equity
  dsimp only
  congr 1
  congr 1
  apply foldl_range_eq_const
  intro w k hk
  dsimp only
  rw [hc k hk]
  unfold rolloutScore
  dsimp only
  split_ifs <;> ring

/-- The hero hole cards of the C6 counterexample: a pair of deuces. -/
def c6hole : List ℕ := [0, 13]

/-- The five-card river board of the C6 counterexample. -/
def c6board : List ℕ := [2, 16, 30, 44, 7]

/-- The 45 cards left for the equity rollout, in the deck order
`_estimate_equity` builds. -/
def c6deck : List ℕ := (List.range 52).filter (fun c => c ∉ c6hole ++ c6board)

/-- A shuffle of `c6deck` whose first two cards give the opponent no pair:
the hero wins this rollout. -/
def c6win : List ℕ := [8, 11] ++ c6deck.filter (fun c => c ≠ 8 ∧ c ≠ 11)

/-- A shuffle of `c6deck` whose first two cards give the opponent a straight:
the hero loses this rollout. -/
def c6lose : List ℕ := [1, 40] ++ c6deck.filter (fun c => c ≠ 1 ∧ c ≠ 40)

/-- The RNG stream of the C6 counterexample: the first 100 shuffle draws come
out as `c6win`, all later draws as `c6lose`. -/
def c6shuffles : ℕ → List ℕ := fun k => if k < 100 then c6win else c6lose

/-- River centers loaded, nothing else. -/
def c6tables : BucketTables := ⟨none, none, none, some [0, 1]⟩

/-- C6 counterexample: with river centers loaded, two `get_bucket` calls with
identical arguments under the same fixed seed return different bucket ids
(1, then 0), because each call consumes 100 draws of the module-level RNG
stream and the rollouts after position 100 come out differently. -/
theorem C6_counterexample :
    List.Perm c6win c6deck ∧ List.Perm c6lose c6deck ∧
    (get_bucket c6tables c6shuffles 0 c6hole c6board 3).1 = 1 ∧
    (get_bucket c6tables c6shuffles 0 c6hole c6board 3).2 = 100 ∧
    (get_bucket c6tables c6shuffles 100 c6hole c6board 3).1 = 0 ∧
    (get_bucket c6tables c6shuffles 0 c6hole c6board 3).1 ≠
      (get_bucket c6tables c6shuffles 100 c6hole c6board 3).1 := by
  have hcall : ∀ p : ℕ, get_bucket c6tables c6shuffles p c6hole c6board 3 =
      equity_to_bucket c6shuffles p c6hole c6board 5 [0, 1] RIVER_BUCKETS := by
    intro p
    unfold get_bucket
    rw [if_neg (by decide), if_neg (by decide), if_neg (by decide),
      if_pos (by decide)]
    rfl
  have hb1 : get_bucket c6tables c6shuffles 0 c6hole c6board 3 = (1, 100) := by
    rw [hcall]
    unfold equity_to_bucket
    rw [estimate_equity_const c6shuffles 0 c6hole c6board 5 100 c6win
      (fun k hk => by unfold c6shuffles; rw [if_pos (by omega)])]
    rw [if_neg (by decide)]
    dsimp only
    rw [show rolloutScore c6hole c6board 5 c6win = 1 from by decide,
      show (((100 : ℕ) : ℚ)) * 1 / ((100 : ℕ) : ℚ) = 1 from by norm_num]
    decide
  have hb2 : get_bucket c6tables c6shuffles 100 c6hole c6board 3 = (0, 200) := by
    rw [hcall]
    unfold equity_to_bucket
    rw [estimate_equity_const c6shuffles 100 c6hole c6board 5 100 c6lose
      (fun k hk => by unfold c6shuffles; rw [if_neg (by omega)])]
    rw [if_neg (by decide)]
    dsimp only
    rw [show rolloutScore c6hole c6board 5 c6lose = 0 from by decide,
      show (((100 : ℕ) : ℚ)) * 0 / ((100 : ℕ) : ℚ) = 0 from by norm_num]
    decide
  refine ⟨by decide, by decide, by rw [hb1], by rw [hb1], by rw [hb2], ?_⟩
  rw [hb1, hb2]
  decide

/-- The bucket count `B_round` of each betting round. -/
def bucketCount (round_idx : ℕ) : ℕ :=
  if round_idx = 0 then PREFLOP_BUCKETS
  else if round_idx = 1 then FLOP_BUCKETS
  else if round_idx = 2 then TURN_BUCKETS
  else RIVER_BUCKETS

theorem postflop_fallback_lt (hole_cards board : List ℕ) (nb : ℕ) (h : 0 < nb) :
    postflop_fallback hole_cards board nb < nb := by
  unfold postflop_fallback
  dsimp only
  split_ifs
  · exact h
  · exact Nat.mod_lt _ h

theorem equity_to_bucket_lt (shuffles : ℕ → List ℕ) (pos : ℕ)
    (hole_cards board : List ℕ) (board_len : ℕ) (centers : List ℚ) (nb : ℕ)
    (h : 0 < nb) :
    (equity_to_bucket shuffles pos hole_cards board board_len centers nb).1 < nb := by
  unfold equity_to_bucket
  dsimp only
  split_ifs <;> exact Nat.mod_lt _ h

/-- C6 (amended): the bucket id always lies in `[0, B_round)` for every round
`0..3`; the preflop regime (loaded table or fallback) never reads the RNG
stream and is a pure function of the hole cards; and the postflop fallback
regime (no table loaded for the round) likewise never reads the RNG stream.
Only the loaded-postflop regime consumes the stream, and the counterexample
shows it is not reproducible across equal-argument calls under a fixed
seed. -/
theorem C6_bucket_amended :
    (∀ (tables : BucketTables) (shuffles : ℕ → List ℕ) (pos : ℕ)
      (hole_cards board : List ℕ) (round_idx : ℕ), round_idx < 4 →
      (get_bucket tables shuffles pos hole_cards board round_idx).1 <
        bucketCount round_idx) ∧
    (∀ (tables : BucketTables) (s1 : ℕ → List ℕ) (p1 : ℕ) (s2 : ℕ → List ℕ)
      (p2 : ℕ) (hole_cards board : List ℕ),
      (get_bucket tables s1 p1 hole_cards board 0).1 =
        (get_bucket tables s2 p2 hole_cards board 0).1) ∧
    (∀ (tables : BucketTables) (s1 : ℕ → List ℕ) (p1 : ℕ) (s2 : ℕ → List ℕ)
      (p2 : ℕ) (hole_cards board : List ℕ) (round_idx : ℕ),
      (round_idx = 1 → tables.flop = none) →
      (round_idx = 2 → tables.turn = none) →
      (round_idx = 3 → tables.river = none) →
      (get_bucket tables s1 p1 hole_cards board round_idx).1 =
        (get_bucket tables s2 p2 hole_cards board round_idx).1) := by
  refine ⟨?_, ?_, ?_⟩
  · intro tables shuffles pos hole_cards board round_idx hr
    interval_cases round_idx
    · rw [show bucketCount 0 = PREFLOP_BUCKETS from rfl]
      unfold get_bucket
      rw [if_pos rfl]
      cases tables.preflop <;> exact Nat.mod_lt _ (by decide)
    · rw [show bucketCount 1 = FLOP_BUCKETS from rfl]
      unfold get_bucket
      rw [if_neg (by decide)]
      by_cases hb : board.length ≥ 3
      · rw [if_pos ⟨rfl, hb⟩]
        cases tables.flop
        · exact postflop_fallback_lt _ _ FLOP_BUCKETS (by decide)
        · exact equity_to_bucket_lt _ _ _ _ _ _ FLOP_BUCKETS (by decide)
      · rw [if_neg (fun hcon => hb hcon.2), if_neg (by simp), if_neg (by simp)]
        exact (by decide : (0 : ℕ) < FLOP_BUCKETS)
    · rw [show bucketCount 2 = TURN_BUCKETS from rfl]
      unfold get_bucket
      rw [if_neg (by decide), if_neg (by simp)]
      by_cases hb : board.length ≥ 4
      · rw [if_pos ⟨rfl, hb⟩]
        cases tables.turn
        · exact postflop_fallback_lt _ _ TURN_BUCKETS (by decide)
        · exact equity_to_bucket_lt _ _ _ _ _ _ TURN_BUCKETS (by decide)
      · rw [if_neg (fun hcon => hb hcon.2), if_neg (by simp)]
        exact (by decide : (0 : ℕ) < TURN_BUCKETS)
    · rw [show bucketCount 3 = RIVER_BUCKETS from rfl]
      unfold get_bucket
      rw [if_neg (by decide), if_neg (by simp), if_neg (by simp)]
      by_cases hb : board.length ≥ 5
      · rw [if_pos ⟨rfl, hb⟩]
        cases tables.river
        · exact postflop_fallback_lt _ _ RIVER_BUCKETS (by decide)
        · exact equity_to_bucket_lt _ _ _ _ _ _ RIVER_BUCKETS (by decide)
      · rw [if_neg (fun hcon => hb hcon.2)]
        exact (by decide : (0 : ℕ) < RIVER_BUCKETS)
  · intro tables s1 p1 s2 p2 hole_cards board
    unfold get_bucket
    rw [if_pos rfl, if_pos rfl]
    cases tables.preflop <;> rfl
  · intro tables s1 p1 s2 p2 hole_cards board round_idx hf ht hr
    unfold get_bucket
    by_cases h0 : round_idx = 0
    · rw [if_pos h0, if_pos h0]
      cases tables.preflop <;> rfl
    · rw [if_neg h0, if_neg h0]
      by_cases h1 : round_idx = 1 ∧ board.length ≥ 3
      · rw [if_pos h1, if_pos h1, hf h1.1]
      · rw [if_neg h1, if_neg h1]
        by_cases h2 : round_idx = 2 ∧ board.length ≥ 4
        · rw [if_pos h2, if_pos h2, ht h2.1]
        · rw [if_neg h2, if_neg h2]
          by_cases h3 : round_idx = 3 ∧ board.length ≥ 5
          · rw [if_pos h3, if_pos h3, hr h3.1]
          · rw [if_neg h3, if_neg h3]

theorem C6_bucket_amended_witness :
    (get_bucket tablesNone (fun _ => []) 0 c6hole c6board 3).1 < bucketCount 3 ∧
    (get_bucket tablesNone (fun _ => []) 0 c6hole [] 0).1 =
      (get_bucket tablesNone (fun _ => [0]) 7 c6hole [] 0).1 ∧
    (get_bucket tablesNone (fun _ => []) 0 c6hole c6board 3).1 =
      (get_bucket tablesNone (fun _ => [0]) 7 c6hole c6board 3).1 := by
  refine ⟨C6_bucket_amended.1 tablesNone (fun _ => []) 0 c6hole c6board 3 (by omega),
    C6_bucket_amended.2.1 tablesNone (fun _ => []) 0 (fun _ => [0]) 7 c6hole [],
    C6_bucket_amended.2.2 tablesNone (fun _ => []) 0 (fun _ => [0]) 7 c6hole c6board 3
      (fun _ => rfl) (fun _ => rfl) (fun _ => rfl)⟩

end PokerCollusion
